import Mathlib

/-!
Verification of the text-chunking routine `chunk_text` from
`export_gdrive_content_to_treelisty.py` (lines 126–207).

Strings are modelled as `List Char`.  The Python function is embedded below:

* `isPySpace` — Python's whitespace class (`str.strip` / regex `\s`, ASCII range);
* `strip` — Python `str.strip()`;
* `collapseNewlines` — `re.sub(r'\n{3,}', '\n\n', ·)`;
* `splitParas` — `str.split('\n\n')`;
* `splitSentences` — `re.split(r'(?<=[.!?])\s+', ·)`;
* `hardSliceE` — the `for i in range(0, len(sentence), chunk_size)` slicing loop,
  returning `Except` because `range` with step 0 raises `ValueError`;
* `sentStep` / `paraStep` / `foldE` — the two nested accumulation loops;
* `chunkTextE` — the whole function.
-/

/-- One output chunk record: `{'text': …, 'charCount': …, 'isLeaf': True}`. -/
structure Chunk where
  text : List Char
  charCount : Nat
  isLeaf : Bool
deriving Repr, DecidableEq

/-- `{'text': t, 'charCount': len(t), 'isLeaf': True}` as built at every append site. -/
def mkChunk (t : List Char) : Chunk := ⟨t, t.length, true⟩

/-- Python whitespace characters, as recognised by `str.strip` and `\s`
(ASCII range: space, tab, newline, carriage return, vertical tab, form feed). -/
def isPySpace (c : Char) : Bool :=
  c == ' ' || c == '\t' || c == '\n' || c == '\r' || c == '\x0b' || c == '\x0c'

/-- Python `str.strip()`: drop leading and trailing whitespace. -/
def strip (s : List Char) : List Char :=
  ((s.dropWhile isPySpace).reverse.dropWhile isPySpace).reverse

/-- `re.sub(r'\n{3,}', '\n\n', s)`: every maximal run of 3 or more newlines is
replaced by exactly two newlines; shorter runs are untouched. -/
def collapseNewlines : List Char → List Char
  | [] => []
  | c :: rest =>
    if c = '\n' then
      (if 2 ≤ (rest.takeWhile (fun x => x = '\n')).length then ['\n', '\n']
       else '\n' :: rest.takeWhile (fun x => x = '\n')) ++
        collapseNewlines (rest.dropWhile (fun x => x = '\n'))
    else c :: collapseNewlines rest
termination_by s => s.length
decreasing_by
  · simp only [List.length_cons]
    exact Nat.lt_succ_of_le (List.Sublist.length_le (List.dropWhile_sublist _))
  · simp

/-- `s.split('\n\n')`: split at each leftmost non-overlapping occurrence of the
two-character separator; `acc` holds the current piece reversed. -/
def splitParasAux : List Char → List Char → List (List Char)
  | [], acc => [acc.reverse]
  | '\n' :: '\n' :: rest, acc => acc.reverse :: splitParasAux rest []
  | c :: rest, acc => splitParasAux rest (c :: acc)

/-- `text.split('\n\n')`. -/
def splitParas (s : List Char) : List (List Char) := splitParasAux s []

/-- The sentence-terminating punctuation of the lookbehind `(?<=[.!?])`. -/
def isSentEnd (c : Char) : Bool := c == '.' || c == '!' || c == '?'

/-- `re.split(r'(?<=[.!?])\s+', s)`: a separator is a maximal whitespace run
whose immediately preceding character is `.`, `!` or `?`. -/
def splitSentAux : List Char → List Char → List (List Char)
  | [], acc => [acc.reverse]
  | c :: rest, acc =>
    if isSentEnd c && (match rest with | r :: _ => isPySpace r | [] => false) then
      (c :: acc).reverse :: splitSentAux (rest.dropWhile isPySpace) []
    else
      splitSentAux rest (c :: acc)
termination_by s _ => s.length
decreasing_by
  · simp only [List.length_cons]
    exact Nat.lt_succ_of_le (List.Sublist.length_le (List.dropWhile_sublist _))
  · simp

/-- `re.split(r'(?<=[.!?])\s+', s)`. -/
def splitSentences (s : List Char) : List (List Char) := splitSentAux s []

/-- The body of `for i in range(0, len(sentence), chunk_size)` with step `k + 1`:
take the window `sentence[i:i+chunk_size]`, strip it, and keep it if non-empty.
The recursion drops one window per call. -/
def hardSliceLoop (k : Nat) : List Char → List Chunk
  | [] => []
  | c :: rest =>
    let w := strip ((c :: rest).take (k + 1))
    (if w.isEmpty then [] else [mkChunk w]) ++ hardSliceLoop k (rest.drop k)
termination_by s => s.length
decreasing_by
  simp only [List.length_cons, List.length_drop]
  exact Nat.lt_succ_of_le (Nat.sub_le _ _)

/-- The hard-slice fallback.  `range(0, n, 0)` raises `ValueError` in Python,
so chunk size 0 is an error; otherwise it is the window loop. -/
def hardSliceE (s : List Char) : Nat → Except Unit (List Chunk)
  | 0 => .error ()
  | k + 1 => .ok (hardSliceLoop k s)

/-- The loop state: `chunks` accumulated so far and the `current_chunk` buffer. -/
structure ChunkState where
  chunks : List Chunk
  current : List Char
deriving Repr, DecidableEq

/-- `if current_chunk: chunks.append({... current_chunk.strip() ...}); current_chunk = ""`. -/
def flush (st : ChunkState) : ChunkState :=
  if st.current.isEmpty then st
  else ⟨st.chunks ++ [mkChunk (strip st.current)], []⟩

/-- One iteration of `for sentence in sentences`. -/
def sentStep (cs : Nat) (st : ChunkState) (sentence : List Char) :
    Except Unit ChunkState :=
  if st.current.length + sentence.length + 1 > cs then
    let st1 := flush st
    if sentence.length > cs then
      (hardSliceE sentence cs).bind fun sliced =>
        .ok ⟨st1.chunks ++ sliced, st1.current⟩
    else
      .ok ⟨st1.chunks, sentence⟩
  else
    .ok ⟨st.chunks,
      if st.current.isEmpty then sentence else st.current ++ ' ' :: sentence⟩

/-- Left fold of a fallible step over a list, short-circuiting on error. -/
def foldE (f : ChunkState → List Char → Except Unit ChunkState) :
    ChunkState → List (List Char) → Except Unit ChunkState
  | st, [] => .ok st
  | st, x :: xs => (f st x).bind fun st2 => foldE f st2 xs

/-- One iteration of `for para in paragraphs`. -/
def paraStep (cs : Nat) (st : ChunkState) (para0 : List Char) :
    Except Unit ChunkState :=
  let para := strip para0
  if para.isEmpty then .ok st
  else if st.current.length + para.length + 2 > cs then
    let st1 := flush st
    if para.length > cs then
      foldE (sentStep cs) st1 (splitSentences para)
    else
      .ok ⟨st1.chunks, para⟩
  else
    .ok ⟨st.chunks,
      if st.current.isEmpty then para else st.current ++ '\n' :: '\n' :: para⟩

/-- `chunk_text(text, chunk_size)` (lines 126–207 of
`export_gdrive_content_to_treelisty.py`), including the trailing
`if current_chunk.strip(): chunks.append(...)` flush. -/
def chunkTextE (text : List Char) (cs : Nat) : Except Unit (List Chunk) :=
  if (strip text).isEmpty then .ok []
  else
    let t := collapseNewlines (strip text)
    if t.length ≤ cs then .ok [mkChunk t]
    else
      (foldE (paraStep cs) ⟨[], []⟩ (splitParas t)).bind fun st =>
        .ok (if (strip st.current).isEmpty then st.chunks
             else st.chunks ++ [mkChunk (strip st.current)])

/-- Convenience: a Lean string literal as a `List Char`. -/
def pyStr (s : String) : List Char := s.toList

/-! ### Fuel-indexed twins

The run-collapsing and run-skipping recursions above are defined by
well-founded recursion, which the kernel cannot evaluate on concrete inputs.
Each gets a structurally recursive twin, indexed by a fuel that we prove
sufficient at `fuel = length`, so that concrete instances reduce by `rfl`. -/

/-- Structural twin of `collapseNewlines`. -/
def collapseNewlinesF : Nat → List Char → List Char
  | _, [] => []
  | 0, s => s
  | fuel + 1, c :: rest =>
    if c = '\n' then
      (if 2 ≤ (rest.takeWhile (fun x => x = '\n')).length then ['\n', '\n']
       else '\n' :: rest.takeWhile (fun x => x = '\n')) ++
        collapseNewlinesF fuel (rest.dropWhile (fun x => x = '\n'))
    else c :: collapseNewlinesF fuel rest

/-- Structural twin of `splitSentAux`. -/
def splitSentAuxF : Nat → List Char → List Char → List (List Char)
  | _, [], acc => [acc.reverse]
  | 0, s, acc => [acc.reverse ++ s]
  | fuel + 1, c :: rest, acc =>
    if isSentEnd c && (match rest with | r :: _ => isPySpace r | [] => false) then
      (c :: acc).reverse :: splitSentAuxF fuel (rest.dropWhile isPySpace) []
    else
      splitSentAuxF fuel rest (c :: acc)

/-- Structural twin of `hardSliceLoop`. -/
def hardSliceLoopF (k : Nat) : Nat → List Char → List Chunk
  | _, [] => []
  | 0, _ => []
  | fuel + 1, c :: rest =>
    let w := strip ((c :: rest).take (k + 1))
    (if w.isEmpty then [] else [mkChunk w]) ++ hardSliceLoopF k fuel (rest.drop k)

/-- Executable twin of `hardSliceE`. -/
def hardSliceEF (s : List Char) : Nat → Except Unit (List Chunk)
  | 0 => .error ()
  | k + 1 => .ok (hardSliceLoopF k s.length s)

/-- Executable twin of `sentStep`. -/
def sentStepF (cs : Nat) (st : ChunkState) (sentence : List Char) :
    Except Unit ChunkState :=
  if st.current.length + sentence.length + 1 > cs then
    let st1 := flush st
    if sentence.length > cs then
      (hardSliceEF sentence cs).bind fun sliced =>
        .ok ⟨st1.chunks ++ sliced, st1.current⟩
    else
      .ok ⟨st1.chunks, sentence⟩
  else
    .ok ⟨st.chunks,
      if st.current.isEmpty then sentence else st.current ++ ' ' :: sentence⟩

/-- Executable twin of `paraStep`. -/
def paraStepF (cs : Nat) (st : ChunkState) (para0 : List Char) :
    Except Unit ChunkState :=
  let para := strip para0
  if para.isEmpty then .ok st
  else if st.current.length + para.length + 2 > cs then
    let st1 := flush st
    if para.length > cs then
      foldE (sentStepF cs) st1 (splitSentAuxF para.length para [])
    else
      .ok ⟨st1.chunks, para⟩
  else
    .ok ⟨st.chunks,
      if st.current.isEmpty then para else st.current ++ '\n' :: '\n' :: para⟩

/-- Executable twin of `chunkTextE`; proved equal to it in `chunkTextE_eval`. -/
def chunkTextEval (text : List Char) (cs : Nat) : Except Unit (List Chunk) :=
  if (strip text).isEmpty then .ok []
  else
    let t := collapseNewlinesF (strip text).length (strip text)
    if t.length ≤ cs then .ok [mkChunk t]
    else
      (foldE (paraStepF cs) ⟨[], []⟩ (splitParas t)).bind fun st =>
        .ok (if (strip st.current).isEmpty then st.chunks
             else st.chunks ++ [mkChunk (strip st.current)])

/-! ### Whitespace bookkeeping -/

/-- The non-whitespace characters of a string, in order. -/
def fNW (s : List Char) : List Char := s.filter (fun c => !isPySpace c)

/-- A buffer is *clean* when it is non-empty and neither its first nor its last
character is whitespace; such a buffer is a fixed point of `strip`. -/
def cleanB (s : List Char) : Bool :=
  match s.head?, s.getLast? with
  | some a, some b => !isPySpace a && !isPySpace b
  | _, _ => false

/-- `'\n\n'.join(pieces)`: the separators removed by `split('\n\n')`, restored. -/
def joinNN : List (List Char) → List Char
  | [] => []
  | [x] => x
  | x :: y :: xs => x ++ '\n' :: '\n' :: joinNN (y :: xs)

/-- The invariant every emitted chunk record satisfies. -/
def goodChunk (cs : Nat) (c : Chunk) : Prop :=
  c.text ≠ [] ∧ cleanB c.text = true ∧ c.text.length ≤ cs ∧
    c.charCount = c.text.length ∧ c.isLeaf = true

/-- Invariant carried through both accumulation loops: every recorded chunk is
well formed and the `current_chunk` buffer is empty or clean and within bound. -/
def LoopInv (cs : Nat) (st : ChunkState) : Prop :=
  (∀ c ∈ st.chunks, goodChunk cs c) ∧
    (st.current = [] ∨ (cleanB st.current = true ∧ st.current.length ≤ cs))

/-- The non-whitespace content recorded so far (chunks, then buffer). -/
def outNW (st : ChunkState) : List Char :=
  ((st.chunks.map (fun c => fNW c.text)).flatten) ++ fNW st.current

theorem cleanB_iff {s : List Char} :
    cleanB s = true ↔
      ∃ a b, s.head? = some a ∧ s.getLast? = some b ∧
        isPySpace a = false ∧ isPySpace b = false := by
  unfold cleanB
  cases hh : s.head? <;> cases hl : s.getLast? <;> simp

theorem cleanB_ne_nil {s : List Char} (h : cleanB s = true) : s ≠ [] := by
  rcases cleanB_iff.mp h with ⟨a, _, ha, _⟩
  intro he; subst he; simp at ha

theorem fNW_append (a b : List Char) : fNW (a ++ b) = fNW a ++ fNW b := by
  simp [fNW]

theorem fNW_reverse (s : List Char) : fNW s.reverse = (fNW s).reverse := by
  simp [fNW, List.filter_reverse]

theorem fNW_eq_nil_iff {s : List Char} :
    fNW s = [] ↔ ∀ c ∈ s, isPySpace c = true := by
  simp [fNW, List.filter_eq_nil_iff]

theorem fNW_dropWhile (s : List Char) :
    fNW (s.dropWhile isPySpace) = fNW s := by
  induction s with
  | nil => rfl
  | cons c rest ih =>
    by_cases h : isPySpace c = true
    · rw [List.dropWhile_cons, if_pos h, ih]
      simp [fNW, h]
    · rw [List.dropWhile_cons, if_neg h]

theorem dropWhile_head?_not {p : Char → Bool} {s : List Char} {c : Char}
    (h : (s.dropWhile p).head? = some c) : p c = false := by
  induction s with
  | nil => simp at h
  | cons a rest ih =>
    rw [List.dropWhile_cons] at h
    by_cases hp : p a = true
    · rw [if_pos hp] at h; exact ih h
    · rw [if_neg hp] at h
      simp at h
      subst h
      simpa using hp

theorem dropWhile_getLast? {p : Char → Bool} {s : List Char}
    (h : s.dropWhile p ≠ []) : (s.dropWhile p).getLast? = s.getLast? := by
  induction s with
  | nil => simp at h
  | cons a rest ih =>
    rw [List.dropWhile_cons]
    by_cases hp : p a = true
    · rw [List.dropWhile_cons, if_pos hp] at h
      rw [if_pos hp, ih h]
      have hr : rest ≠ [] := by
        intro he; subst he; simp at h
      obtain ⟨r, rs, rfl⟩ := List.exists_cons_of_ne_nil hr
      exact (List.getLast?_cons_cons).symm
    · rw [if_neg hp]

theorem dropWhile_eq_self_of_head {p : Char → Bool} {s : List Char}
    (h : ∀ a, s.head? = some a → p a = false) : s.dropWhile p = s := by
  cases s with
  | nil => rfl
  | cons a rest =>
    rw [List.dropWhile_cons, if_neg]
    simp [h a rfl]

theorem strip_nil : strip [] = [] := rfl

theorem fNW_strip (s : List Char) : fNW (strip s) = fNW s := by
  unfold strip
  rw [fNW_reverse, fNW_dropWhile, fNW_reverse, fNW_dropWhile,
    List.reverse_reverse]

theorem strip_eq_nil_iff {s : List Char} : strip s = [] ↔ fNW s = [] := by
  constructor
  · intro h
    rw [← fNW_strip s, h]
    rfl
  · intro h
    have hall : ∀ c ∈ s, isPySpace c = true := fNW_eq_nil_iff.mp h
    have h1 : s.dropWhile isPySpace = [] :=
      List.dropWhile_eq_nil_iff.mpr hall
    unfold strip
    rw [h1]
    rfl

theorem strip_length_le (s : List Char) : (strip s).length ≤ s.length := by
  unfold strip
  rw [List.length_reverse]
  calc ((s.dropWhile isPySpace).reverse.dropWhile isPySpace).length
      ≤ (s.dropWhile isPySpace).reverse.length :=
        (List.dropWhile_sublist _).length_le
    _ = (s.dropWhile isPySpace).length := List.length_reverse _
    _ ≤ s.length := (List.dropWhile_sublist _).length_le

theorem cleanB_strip {s : List Char} (h : strip s ≠ []) :
    cleanB (strip s) = true := by
  have hune : (s.dropWhile isPySpace).reverse.dropWhile isPySpace ≠ [] := by
    intro he
    apply h
    unfold strip
    rw [he]
    rfl
  have hd : s.dropWhile isPySpace ≠ [] := by
    intro he
    apply hune
    rw [he]
    rfl
  obtain ⟨a, ha⟩ : ∃ a, (s.dropWhile isPySpace).head? = some a := by
    cases hx : (s.dropWhile isPySpace).head? with
    | none => exact absurd (List.head?_eq_none_iff.mp hx) hd
    | some a => exact ⟨a, rfl⟩
  obtain ⟨b, hb⟩ :
      ∃ b, ((s.dropWhile isPySpace).reverse.dropWhile isPySpace).head? = some b := by
    cases hx : ((s.dropWhile isPySpace).reverse.dropWhile isPySpace).head? with
    | none => exact absurd (List.head?_eq_none_iff.mp hx) hune
    | some b => exact ⟨b, rfl⟩
  refine cleanB_iff.mpr
    ⟨a, b, ?_, ?_, dropWhile_head?_not ha, dropWhile_head?_not hb⟩
  · show (strip s).head? = some a
    unfold strip
    rw [List.head?_reverse, dropWhile_getLast? hune, List.getLast?_reverse, ha]
  · show (strip s).getLast? = some b
    unfold strip
    rw [List.getLast?_reverse, hb]

theorem strip_eq_self_of_cleanB {s : List Char} (h : cleanB s = true) :
    strip s = s := by
  rcases cleanB_iff.mp h with ⟨a, b, ha, hb, hwa, hwb⟩
  have h1 : s.dropWhile isPySpace = s :=
    dropWhile_eq_self_of_head (by intro x hx; rw [ha] at hx; cases hx; exact hwa)
  have h2 : s.reverse.dropWhile isPySpace = s.reverse :=
    dropWhile_eq_self_of_head
      (by intro x hx; rw [List.head?_reverse, hb] at hx; cases hx; exact hwb)
  unfold strip
  rw [h1, h2, List.reverse_reverse]

theorem strip_infix_self (s : List Char) : strip s <:+: s := by
  have h1 : s.dropWhile isPySpace <:+ s := List.dropWhile_suffix _
  have h2 : (s.dropWhile isPySpace).reverse.dropWhile isPySpace <:+
      (s.dropWhile isPySpace).reverse := List.dropWhile_suffix _
  have h3 : strip s <+: s.dropWhile isPySpace := by
    have h4 := List.reverse_prefix.mpr h2
    rw [List.reverse_reverse] at h4
    exact h4
  exact (h3.isInfix).trans h1.isInfix

/-! ### `collapseNewlines` lemmas -/

theorem collapseNewlines_nil : collapseNewlines [] = [] := by
  simp [collapseNewlines]

theorem collapseNewlines_cons_newline (rest : List Char) :
    collapseNewlines ('\n' :: rest) =
      (if 2 ≤ (rest.takeWhile (fun x => x = '\n')).length then ['\n', '\n']
       else '\n' :: rest.takeWhile (fun x => x = '\n')) ++
        collapseNewlines (rest.dropWhile (fun x => x = '\n')) := by
  rw [collapseNewlines]
  simp

theorem collapseNewlines_cons_other {c : Char} (h : ¬c = '\n') (rest : List Char) :
    collapseNewlines (c :: rest) = c :: collapseNewlines rest := by
  rw [collapseNewlines]
  simp [h]

theorem collapseNewlines_ne_nil {s : List Char} (h : s ≠ []) :
    collapseNewlines s ≠ [] := by
  obtain ⟨c, rest, rfl⟩ := List.exists_cons_of_ne_nil h
  by_cases hc : c = '\n'
  · subst hc
    rw [collapseNewlines_cons_newline]
    by_cases h2 : 2 ≤ (rest.takeWhile (fun x => x = '\n')).length <;>
      simp [h2]
  · rw [collapseNewlines_cons_other hc]
    simp

theorem newline_isPySpace : isPySpace '\n' = true := by decide

theorem fNW_takeWhile_newline (s : List Char) :
    fNW (s.takeWhile (fun x => x = '\n')) = [] := by
  rw [fNW_eq_nil_iff]
  intro c hc
  have := List.mem_takeWhile_imp hc
  simp at this
  rw [this]
  exact newline_isPySpace

theorem fNW_collapseNewlines (s : List Char) :
    fNW (collapseNewlines s) = fNW s := by
  induction s using collapseNewlines.induct with
  | case1 => rw [collapseNewlines_nil]
  | case2 rest ih =>
    rw [collapseNewlines_cons_newline, fNW_append, ih]
    have h1 : fNW ('\n' :: rest) = fNW rest := by
      simp [fNW, newline_isPySpace]
    have h2 : fNW rest = fNW (rest.dropWhile (fun x => x = '\n')) := by
      conv_lhs =>
        rw [← List.takeWhile_append_dropWhile
          (p := fun x => decide (x = '\n')) (l := rest)]
      rw [fNW_append, fNW_takeWhile_newline]
      simp
    rw [h1, h2]
    have h3 : fNW (if 2 ≤ (rest.takeWhile (fun x => x = '\n')).length
        then ['\n', '\n'] else '\n' :: rest.takeWhile (fun x => x = '\n')) = [] := by
      by_cases hb : 2 ≤ (rest.takeWhile (fun x => x = '\n')).length
      · rw [if_pos hb]
        simp [fNW, newline_isPySpace]
      · rw [if_neg hb]
        have h4 := fNW_takeWhile_newline rest
        simp [fNW, newline_isPySpace] at h4 ⊢
        exact h4
    rw [h3]
    simp
  | case3 c rest hc ih =>
    rw [collapseNewlines_cons_other hc]
    have ih' : List.filter (fun x => !isPySpace x) (collapseNewlines rest) =
        List.filter (fun x => !isPySpace x) rest := ih
    simp [fNW, List.filter_cons, ih']

theorem collapseNewlines_eq_self {s : List Char} (h : ∀ c ∈ s, c ≠ '\n') :
    collapseNewlines s = s := by
  induction s using collapseNewlines.induct with
  | case1 => exact collapseNewlines_nil
  | case2 rest ih =>
    exact absurd rfl (h '\n' (by simp))
  | case3 c rest hc ih =>
    rw [collapseNewlines_cons_other hc]
    rw [ih (fun x hx => h x (by simp [hx]))]

theorem getLast?_append_right {a b : List Char} (h : b ≠ []) :
    (a ++ b).getLast? = b.getLast? := by
  rw [List.getLast?_append]
  obtain ⟨x, hx⟩ : ∃ x, b.getLast? = some x := by
    cases hb : b.getLast? with
    | none => exact absurd (List.getLast?_eq_none_iff.mp hb) h
    | some x => exact ⟨x, rfl⟩
  rw [hx]
  rfl

theorem getLast?_cons_of_ne_nil {c : Char} {rest : List Char} (h : rest ≠ []) :
    (c :: rest).getLast? = rest.getLast? := by
  obtain ⟨r, rs, rfl⟩ := List.exists_cons_of_ne_nil h
  exact List.getLast?_cons_cons

theorem collapseNewlines_getLast_not_ws :
    ∀ {s : List Char}, (∀ b, s.getLast? = some b → isPySpace b = false) →
      ∀ b, (collapseNewlines s).getLast? = some b → isPySpace b = false := by
  intro s
  induction s using collapseNewlines.induct with
  | case1 =>
    intro _ b hb
    rw [collapseNewlines_nil] at hb
    simp at hb
  | case2 rest ih =>
    intro h
    by_cases hr : rest = []
    · subst hr
      have := h '\n' (by simp)
      simp [newline_isPySpace] at this
    · have hlast : ∀ b, rest.getLast? = some b → isPySpace b = false := by
        intro b hb
        exact h b (by rw [getLast?_cons_of_ne_nil hr, hb])
      have hdrop : rest.dropWhile (fun x => x = '\n') ≠ [] := by
        intro he
        have hall := List.dropWhile_eq_nil_iff.mp he
        obtain ⟨b, hb⟩ : ∃ b, rest.getLast? = some b := by
          cases hb : rest.getLast? with
          | none => exact absurd (List.getLast?_eq_none_iff.mp hb) hr
          | some b => exact ⟨b, rfl⟩
        have hbmem : b ∈ rest :=
          List.mem_of_mem_getLast? (show b ∈ rest.getLast? by rw [hb]; rfl)
        have hbn : b = '\n' := by simpa using hall b hbmem
        have := hlast b hb
        rw [hbn, newline_isPySpace] at this
        simp at this
      have hgl : (rest.dropWhile (fun x => x = '\n')).getLast? = rest.getLast? :=
        dropWhile_getLast? hdrop
      intro b hb
      rw [collapseNewlines_cons_newline,
        getLast?_append_right (collapseNewlines_ne_nil hdrop)] at hb
      refine ih ?_ b hb
      intro x hx
      rw [hgl] at hx
      exact hlast x hx
  | case3 c rest hc ih =>
    intro h
    by_cases hr : rest = []
    · subst hr
      intro b hb
      rw [collapseNewlines_cons_other hc, collapseNewlines_nil] at hb
      exact h b hb
    · have hcr : collapseNewlines rest ≠ [] := collapseNewlines_ne_nil hr
      intro b hb
      rw [collapseNewlines_cons_other hc, getLast?_cons_of_ne_nil hcr] at hb
      refine ih ?_ b hb
      intro x hx
      exact h x (by rw [getLast?_cons_of_ne_nil hr, hx])

theorem cleanB_collapseNewlines {s : List Char} (h : cleanB s = true) :
    cleanB (collapseNewlines s) = true := by
  rcases cleanB_iff.mp h with ⟨a, b, ha, hb, hwa, hwb⟩
  obtain ⟨c, rest, rfl⟩ :=
    List.exists_cons_of_ne_nil (cleanB_ne_nil h)
  have hac : c = a := by simpa using ha
  have hwc : isPySpace c = false := by rw [hac]; exact hwa
  have hcn : ¬c = '\n' := by
    intro he
    rw [he, newline_isPySpace] at hwc
    simp at hwc
  have hcol : collapseNewlines (c :: rest) = c :: collapseNewlines rest :=
    collapseNewlines_cons_other hcn rest
  have hne : collapseNewlines (c :: rest) ≠ [] :=
    collapseNewlines_ne_nil (by simp)
  obtain ⟨b', hb'⟩ : ∃ b', (collapseNewlines (c :: rest)).getLast? = some b' := by
    cases hx : (collapseNewlines (c :: rest)).getLast? with
    | none => exact absurd (List.getLast?_eq_none_iff.mp hx) hne
    | some b' => exact ⟨b', rfl⟩
  refine cleanB_iff.mpr ⟨c, b', ?_, hb', hwc, ?_⟩
  · rw [hcol]
    rfl
  · refine collapseNewlines_getLast_not_ws ?_ b' hb'
    intro x hx
    rw [hb] at hx
    cases hx
    exact hwb

/-! ### `splitParas` lemmas -/

theorem splitParasAux_ne_nil (s acc : List Char) : splitParasAux s acc ≠ [] := by
  induction s, acc using splitParasAux.induct with
  | case1 acc => simp [splitParasAux.eq_1]
  | case2 rest acc ih =>
    rw [splitParasAux.eq_2]
    simp
  | case3 c rest acc h ih =>
    rw [splitParasAux.eq_3 _ _ _ h]
    exact ih

theorem joinNN_cons_of_ne_nil {x : List Char} {L : List (List Char)} (h : L ≠ []) :
    joinNN (x :: L) = x ++ '\n' :: '\n' :: joinNN L := by
  obtain ⟨y, ys, rfl⟩ := List.exists_cons_of_ne_nil h
  rfl

theorem joinNN_splitParasAux (s acc : List Char) :
    joinNN (splitParasAux s acc) = acc.reverse ++ s := by
  induction s, acc using splitParasAux.induct with
  | case1 acc => simp [splitParasAux.eq_1, joinNN]
  | case2 rest acc ih =>
    rw [splitParasAux.eq_2, joinNN_cons_of_ne_nil (splitParasAux_ne_nil _ _), ih]
    simp
  | case3 c rest acc h ih =>
    rw [splitParasAux.eq_3 _ _ _ h, ih]
    simp

theorem joinNN_splitParas (s : List Char) : joinNN (splitParas s) = s := by
  unfold splitParas
  rw [joinNN_splitParasAux]
  rfl

theorem fNW_joinNN : ∀ L : List (List Char), fNW (joinNN L) = (L.map fNW).flatten
  | [] => rfl
  | [x] => by simp [joinNN]
  | x :: y :: xs => by
    rw [joinNN_cons_of_ne_nil (by simp), fNW_append]
    have h2 : fNW ('\n' :: '\n' :: joinNN (y :: xs)) = fNW (joinNN (y :: xs)) := by
      simp [fNW, newline_isPySpace]
    rw [h2, fNW_joinNN (y :: xs)]
    simp

theorem fNW_splitParas (s : List Char) :
    ((splitParas s).map fNW).flatten = fNW s := by
  rw [← fNW_joinNN, joinNN_splitParas]

theorem infix_joinNN : ∀ {L : List (List Char)} {p : List Char},
    p ∈ L → p <:+: joinNN L
  | [x], p, h => by
    simp at h
    subst h
    exact List.infix_rfl
  | x :: y :: xs, p, h => by
    rcases List.mem_cons.mp h with rfl | h'
    · rw [joinNN_cons_of_ne_nil (by simp)]
      exact (List.prefix_append _ _).isInfix
    · rw [joinNN_cons_of_ne_nil (by simp)]
      have hi := infix_joinNN h'
      have hre : x ++ '\n' :: '\n' :: joinNN (y :: xs) =
          (x ++ ['\n', '\n']) ++ joinNN (y :: xs) := by simp
      rw [hre]
      exact hi.trans (List.suffix_append _ _).isInfix

theorem infix_of_mem_splitParas {s p : List Char} (h : p ∈ splitParas s) :
    p <:+: s := by
  have := infix_joinNN h
  rwa [joinNN_splitParas] at this

/-! ### `splitSentences` lemmas -/

theorem exists_head?_of_ne_nil {l : List Char} (h : l ≠ []) :
    ∃ a, l.head? = some a := by
  cases hx : l.head? with
  | none => exact absurd (List.head?_eq_none_iff.mp hx) h
  | some a => exact ⟨a, rfl⟩

theorem exists_getLast?_of_ne_nil {l : List Char} (h : l ≠ []) :
    ∃ a, l.getLast? = some a := by
  cases hx : l.getLast? with
  | none => exact absurd (List.getLast?_eq_none_iff.mp hx) h
  | some a => exact ⟨a, rfl⟩

theorem sentEnd_not_ws {c : Char} (h : isSentEnd c = true) :
    isPySpace c = false := by
  unfold isSentEnd at h
  simp at h
  rcases h with (h | h) | h <;> (subst h; decide)

theorem fNW_cons (c : Char) (rest : List Char) :
    fNW (c :: rest) =
      (if isPySpace c = true then [] else [c]) ++ fNW rest := by
  by_cases h : isPySpace c = true <;> simp [fNW, List.filter_cons, h]

theorem splitSentAux_cons_pos {c : Char} {rest acc : List Char}
    (h : (isSentEnd c &&
      (match rest with | r :: _ => isPySpace r | [] => false)) = true) :
    splitSentAux (c :: rest) acc =
      (c :: acc).reverse :: splitSentAux (rest.dropWhile isPySpace) [] := by
  cases rest with
  | nil => simp at h
  | cons r tail =>
    rw [splitSentAux.eq_2, if_pos (by simpa using h)]

theorem splitSentAux_cons_neg {c : Char} {rest acc : List Char}
    (h : ¬(isSentEnd c &&
      (match rest with | r :: _ => isPySpace r | [] => false)) = true) :
    splitSentAux (c :: rest) acc = splitSentAux rest (c :: acc) := by
  cases rest with
  | nil =>
    rw [splitSentAux.eq_3, if_neg (by simp)]
  | cons r tail =>
    rw [splitSentAux.eq_2, if_neg (by simpa using h)]

theorem splitSentAux_ne_nil (s acc : List Char) : splitSentAux s acc ≠ [] := by
  induction s, acc using splitSentAux.induct with
  | case1 acc => simp [splitSentAux.eq_1]
  | case2 c rest acc hcond ih =>
    rw [splitSentAux_cons_pos hcond]
    simp
  | case3 c rest acc hcond ih =>
    rw [splitSentAux_cons_neg hcond]
    exact ih

theorem fNW_splitSentAux (s acc : List Char) :
    ((splitSentAux s acc).map fNW).flatten = fNW acc.reverse ++ fNW s := by
  induction s, acc using splitSentAux.induct with
  | case1 acc => simp [splitSentAux.eq_1, fNW]
  | case2 c rest acc hcond ih =>
    rw [splitSentAux_cons_pos hcond]
    simp only [List.map_cons, List.flatten_cons, ih]
    rw [List.reverse_cons, fNW_append, fNW_dropWhile]
    have hc : fNW (c :: rest) = fNW [c] ++ fNW rest := by
      rw [fNW_cons]
      by_cases h : isPySpace c = true <;> simp [fNW, List.filter_cons, h]
    rw [hc]
    simp [fNW]
  | case3 c rest acc hcond ih =>
    rw [splitSentAux_cons_neg hcond, ih]
    rw [List.reverse_cons, fNW_append]
    have hc : fNW (c :: rest) = fNW [c] ++ fNW rest := by
      rw [fNW_cons]
      by_cases h : isPySpace c = true <;> simp [fNW, List.filter_cons, h]
    rw [hc]
    simp

theorem fNW_splitSentences (s : List Char) :
    ((splitSentences s).map fNW).flatten = fNW s := by
  unfold splitSentences
  rw [fNW_splitSentAux]
  simp [fNW]

theorem splitSentAux_pieces_clean :
    ∀ (s acc : List Char),
      (∀ b, s.getLast? = some b → isPySpace b = false) →
      (acc = [] → ∃ c r, s = c :: r ∧ isPySpace c = false) →
      (∀ a, acc.getLast? = some a → isPySpace a = false) →
      (s = [] → ∀ a, acc.head? = some a → isPySpace a = false) →
      ∀ p ∈ splitSentAux s acc, cleanB p = true := by
  intro s acc
  induction s, acc using splitSentAux.induct with
  | case1 acc =>
    intro _ h2 h3 h4 p hp
    have hacc : acc ≠ [] := by
      intro he
      obtain ⟨c, r, hcr, _⟩ := h2 he
      exact List.noConfusion hcr
    rw [splitSentAux.eq_1] at hp
    simp at hp
    subst hp
    obtain ⟨a, ha⟩ := exists_getLast?_of_ne_nil hacc
    obtain ⟨a', ha'⟩ := exists_head?_of_ne_nil hacc
    refine cleanB_iff.mpr ⟨a, a', ?_, ?_, h3 a ha, h4 rfl a' ha'⟩
    · rw [List.head?_reverse, ha]
    · rw [List.getLast?_reverse, ha']
  | case2 c rest acc hcond ih =>
    intro h1 h2 h3 h4 p hp
    obtain ⟨r, tail, rfl⟩ : ∃ r tail, rest = r :: tail := by
      cases rest with
      | nil => simp at hcond
      | cons r tail => exact ⟨r, tail, rfl⟩
    have hse : isSentEnd c = true ∧ isPySpace r = true := by simpa using hcond
    have hrest1 : ∀ b, (r :: tail).getLast? = some b → isPySpace b = false := by
      intro b hb
      exact h1 b (by rw [getLast?_cons_of_ne_nil (by simp), hb])
    have hdne : (r :: tail).dropWhile isPySpace ≠ [] := by
      intro he
      have hall := List.dropWhile_eq_nil_iff.mp he
      obtain ⟨b, hb⟩ := exists_getLast?_of_ne_nil
        (show (r :: tail) ≠ [] by simp)
      have hbmem : b ∈ r :: tail :=
        List.mem_of_mem_getLast? (show b ∈ (r :: tail).getLast? by rw [hb]; rfl)
      have := hrest1 b hb
      rw [hall b hbmem] at this
      simp at this
    rw [splitSentAux_cons_pos hcond] at hp
    rcases List.mem_cons.mp hp with rfl | hp'
    · -- the piece ending at the sentence terminator `c`
      have hlast : ((c :: acc).reverse).getLast? = some c := by
        rw [List.getLast?_reverse]
        rfl
      obtain ⟨a, ha⟩ : ∃ a, (c :: acc).getLast? = some a :=
        exists_getLast?_of_ne_nil (by simp)
      refine cleanB_iff.mpr ⟨a, c, ?_, hlast, ?_, sentEnd_not_ws hse.1⟩
      · rw [List.head?_reverse, ha]
      · cases acc with
        | nil =>
          obtain ⟨c', r', hcr, hw⟩ := h2 rfl
          have hc' : c = c' := by
            have := congrArg List.head? hcr
            simpa using this
          have hac : c = a := by simpa using ha
          rw [← hac, hc']
          exact hw
        | cons a0 acc0 =>
          refine h3 a ?_
          rw [← ha]
          exact (List.getLast?_cons_cons).symm
    · refine ih ?_ ?_ ?_ ?_ p hp'
      · intro b hb
        rw [dropWhile_getLast? hdne] at hb
        exact hrest1 b hb
      · intro _
        obtain ⟨c', r', heq⟩ := List.exists_cons_of_ne_nil hdne
        refine ⟨c', r', heq, ?_⟩
        refine dropWhile_head?_not (p := isPySpace) (s := r :: tail) ?_
        rw [heq]
        rfl
      · intro a ha
        simp at ha
      · intro he
        exact absurd he hdne
  | case3 c rest acc hcond ih =>
    intro h1 h2 h3 h4 p hp
    rw [splitSentAux_cons_neg hcond] at hp
    refine ih ?_ ?_ ?_ ?_ p hp
    · intro b hb
      have hr : rest ≠ [] := by
        intro he
        rw [he] at hb
        simp at hb
      exact h1 b (by rw [getLast?_cons_of_ne_nil hr, hb])
    · intro he
      exact absurd he (by simp)
    · intro a ha
      cases hacc : acc with
      | nil =>
        subst hacc
        have hac : c = a := by simpa using ha
        obtain ⟨c', r', hcr, hw⟩ := h2 rfl
        have hcc : c = c' := by
          have := congrArg List.head? hcr
          simpa using this
        rw [← hac, hcc]
        exact hw
      | cons a0 acc0 =>
        subst hacc
        refine h3 a ?_
        rw [← ha]
        exact (List.getLast?_cons_cons).symm
    · intro he a ha
      subst he
      have hac : c = a := by simpa using ha
      have := h1 c (by simp)
      rw [← hac]
      exact this

theorem splitSentences_pieces_clean {s : List Char} (h : cleanB s = true) :
    ∀ p ∈ splitSentences s, cleanB p = true := by
  rcases cleanB_iff.mp h with ⟨a, b, ha, hb, hwa, hwb⟩
  refine splitSentAux_pieces_clean s [] ?_ ?_ ?_ ?_
  · intro x hx
    rw [hb] at hx
    cases hx
    exact hwb
  · intro _
    obtain ⟨c, rest, rfl⟩ := List.exists_cons_of_ne_nil (cleanB_ne_nil h)
    refine ⟨c, rest, rfl, ?_⟩
    have hca : c = a := by simpa using ha
    rw [hca]
    exact hwa
  · intro x hx
    simp at hx
  · intro he
    exact absurd he (cleanB_ne_nil h)

/-! ### Degenerate splits (no separator present) -/

theorem splitParasAux_no_newline :
    ∀ {s : List Char}, (∀ c ∈ s, c ≠ '\n') →
      ∀ acc, splitParasAux s acc = [acc.reverse ++ s] := by
  intro s
  induction s with
  | nil =>
    intro _ acc
    rw [splitParasAux.eq_1]
    simp
  | cons c rest ih =>
    intro h acc
    have hc : c ≠ '\n' := h c (by simp)
    rw [splitParasAux.eq_3 _ _ _ (by intro r h1 _; exact hc h1)]
    rw [ih (fun x hx => h x (by simp [hx])) (c :: acc)]
    simp

theorem splitSentAux_no_sentEnd :
    ∀ {s : List Char}, (∀ c ∈ s, isSentEnd c = false) →
      ∀ acc, splitSentAux s acc = [acc.reverse ++ s] := by
  intro s
  induction s with
  | nil =>
    intro _ acc
    rw [splitSentAux.eq_1]
    simp
  | cons c rest ih =>
    intro h acc
    have hc : isSentEnd c = false := h c (by simp)
    rw [splitSentAux_cons_neg (by simp [hc])]
    rw [ih (fun x hx => h x (by simp [hx])) (c :: acc)]
    simp

/-! ### Hard-slice lemmas -/

theorem goodChunk_mkChunk_strip {cs : Nat} {s : List Char}
    (hne : strip s ≠ []) (hlen : (strip s).length ≤ cs) :
    goodChunk cs (mkChunk (strip s)) :=
  ⟨hne, cleanB_strip hne, hlen, rfl, rfl⟩

theorem hardSliceLoop_good (k : Nat) :
    ∀ s : List Char, ∀ c ∈ hardSliceLoop k s, goodChunk (k + 1) c := by
  intro s
  induction s using hardSliceLoop.induct k with
  | case1 =>
    intro c hc
    rw [hardSliceLoop.eq_1] at hc
    simp at hc
  | case2 a rest ih =>
    intro c hc
    rw [hardSliceLoop.eq_2] at hc
    rcases List.mem_append.mp hc with h | h
    · by_cases he : (strip (List.take (k + 1) (a :: rest))).isEmpty = true
      · rw [if_pos he] at h
        simp at h
      · rw [if_neg he] at h
        simp at h
        subst h
        have hne : strip (List.take (k + 1) (a :: rest)) ≠ [] := by
          intro hx
          rw [hx] at he
          exact he rfl
        refine goodChunk_mkChunk_strip hne ?_
        calc (strip (List.take (k + 1) (a :: rest))).length
            ≤ (List.take (k + 1) (a :: rest)).length := strip_length_le _
          _ ≤ k + 1 := by rw [List.length_take]; exact min_le_left _ _
    · exact ih c h

theorem fNW_hardSliceLoop (k : Nat) :
    ∀ s : List Char,
      ((hardSliceLoop k s).map (fun c => fNW c.text)).flatten = fNW s := by
  intro s
  induction s using hardSliceLoop.induct k with
  | case1 =>
    rw [hardSliceLoop.eq_1]
    rfl
  | case2 a rest ih =>
    rw [hardSliceLoop.eq_2]
    rw [List.map_append, List.flatten_append, ih]
    have hsplit : fNW (a :: rest) =
        fNW (List.take (k + 1) (a :: rest)) ++ fNW (List.drop k rest) := by
      conv_lhs => rw [← List.take_append_drop (k + 1) (a :: rest)]
      rw [fNW_append, List.drop_succ_cons]
    rw [hsplit]
    by_cases he : (strip (List.take (k + 1) (a :: rest))).isEmpty = true
    · rw [if_pos he]
      have : strip (List.take (k + 1) (a :: rest)) = [] :=
        List.isEmpty_iff.mp he
      have h0 : fNW (List.take (k + 1) (a :: rest)) = [] := by
        rw [← fNW_strip, this]
        rfl
      rw [h0]
      rfl
    · rw [if_neg he]
      simp only [List.map_cons, List.map_nil, List.flatten_cons, List.flatten_nil]
      rw [show (mkChunk (strip (List.take (k + 1) (a :: rest)))).text =
        strip (List.take (k + 1) (a :: rest)) from rfl]
      rw [fNW_strip]
      simp

/-! ### The loop invariant -/

theorem head?_append_left {a b : List Char} (h : a ≠ []) :
    (a ++ b).head? = a.head? := by
  rw [List.head?_append]
  obtain ⟨x, hx⟩ := exists_head?_of_ne_nil h
  rw [hx]
  rfl

theorem cleanB_append_sep {cur s : List Char} (sep : List Char)
    (hcur : cleanB cur = true) (hs : cleanB s = true) :
    cleanB (cur ++ sep ++ s) = true := by
  rcases cleanB_iff.mp hcur with ⟨a, _, ha, _, hwa, _⟩
  rcases cleanB_iff.mp hs with ⟨_, b, _, hb, _, hwb⟩
  refine cleanB_iff.mpr ⟨a, b, ?_, ?_, hwa, hwb⟩
  · rw [List.append_assoc, head?_append_left (cleanB_ne_nil hcur), ha]
  · rw [List.append_assoc, getLast?_append_right
      (by
        intro he
        rcases List.append_eq_nil.mp he with ⟨_, h2⟩
        exact cleanB_ne_nil hs h2),
      getLast?_append_right (cleanB_ne_nil hs), hb]

theorem flush_spec {cs : Nat} {st : ChunkState} (h : LoopInv cs st) :
    LoopInv cs (flush st) ∧ (flush st).current = [] ∧
      outNW (flush st) = outNW st ∧
      ∀ c ∈ st.chunks, c ∈ (flush st).chunks := by
  unfold flush
  by_cases he : st.current.isEmpty = true
  · rw [if_pos he]
    have hcur : st.current = [] := List.isEmpty_iff.mp he
    exact ⟨h, hcur, rfl, fun c hc => hc⟩
  · rw [if_neg he]
    have hne : st.current ≠ [] := by
      intro hx
      exact he (by rw [hx]; rfl)
    have hclean : cleanB st.current = true ∧ st.current.length ≤ cs := by
      rcases h.2 with h2 | h2
      · exact absurd h2 hne
      · exact h2
    have hself : strip st.current = st.current :=
      strip_eq_self_of_cleanB hclean.1
    refine ⟨⟨?_, Or.inl rfl⟩, rfl, ?_, ?_⟩
    · intro c hc
      rcases List.mem_append.mp hc with hc | hc
      · exact h.1 c hc
      · simp at hc
        subst hc
        rw [hself]
        exact ⟨hne, hclean.1, hclean.2, rfl, rfl⟩
    · unfold outNW
      simp only [List.map_append, List.flatten_append]
      rw [hself]
      simp [fNW, mkChunk]
    · intro c hc
      exact List.mem_append.mpr (Or.inl hc)

theorem sentStep_spec {cs : Nat} {st : ChunkState} {s : List Char}
    (hcs : 0 < cs) (hInv : LoopInv cs st) (hs : cleanB s = true) :
    ∃ st', sentStep cs st s = .ok st' ∧ LoopInv cs st' ∧
      outNW st' = outNW st ++ fNW s ∧
      ∀ c ∈ st.chunks, c ∈ st'.chunks := by
  obtain ⟨hF, hFcur, hFout, hFmem⟩ := flush_spec hInv
  obtain ⟨k, rfl⟩ : ∃ k, cs = k + 1 := ⟨cs - 1, by omega⟩
  by_cases hgt : st.current.length + s.length + 1 > k + 1
  · by_cases hbig : s.length > k + 1
    · refine ⟨⟨(flush st).chunks ++ hardSliceLoop k s, (flush st).current⟩, ?_, ?_, ?_, ?_⟩
      · unfold sentStep
        rw [if_pos hgt, if_pos hbig]
        rfl
      · constructor
        · intro c hc
          rcases List.mem_append.mp hc with hc | hc
          · exact hF.1 c hc
          · exact hardSliceLoop_good k s c hc
        · rw [hFcur]
          exact Or.inl rfl
      · have hout : outNW ⟨(flush st).chunks ++ hardSliceLoop k s, (flush st).current⟩
            = outNW (flush st) ++ fNW s := by
          unfold outNW
          rw [hFcur, List.map_append, List.flatten_append, fNW_hardSliceLoop]
          simp [fNW]
        rw [hout, hFout]
      · intro c hc
        exact List.mem_append.mpr (Or.inl (hFmem c hc))
    · refine ⟨⟨(flush st).chunks, s⟩, ?_, ?_, ?_, ?_⟩
      · unfold sentStep
        rw [if_pos hgt, if_neg hbig]
      · exact ⟨hF.1, Or.inr ⟨hs, by show s.length ≤ k + 1; omega⟩⟩
      · have hout : outNW ⟨(flush st).chunks, s⟩ = outNW (flush st) ++ fNW s := by
          unfold outNW
          rw [hFcur]
          simp [fNW]
        rw [hout, hFout]
      · exact hFmem
  · refine ⟨⟨st.chunks, if st.current.isEmpty then s else st.current ++ ' ' :: s⟩,
      ?_, ?_, ?_, fun c hc => hc⟩
    · unfold sentStep
      rw [if_neg hgt]
    · refine ⟨hInv.1, Or.inr ?_⟩
      by_cases he : st.current.isEmpty = true
      · rw [if_pos he]
        have h0 : st.current.length = 0 := by
          rw [List.isEmpty_iff.mp he]
          rfl
        exact ⟨hs, by show s.length ≤ k + 1; omega⟩
      · rw [if_neg he]
        have hne : st.current ≠ [] := by
          intro hx
          exact he (by rw [hx]; rfl)
        have hclean : cleanB st.current = true ∧ st.current.length ≤ k + 1 := by
          rcases hInv.2 with h2 | h2
          · exact absurd h2 hne
          · exact h2
        constructor
        · have := cleanB_append_sep [' '] hclean.1 hs
          simpa using this
        · simp only [List.length_append, List.length_cons]
          omega
    · unfold outNW
      by_cases he : st.current.isEmpty = true
      · rw [if_pos he]
        rw [List.isEmpty_iff.mp he]
        simp [fNW]
      · rw [if_neg he]
        have hsp : fNW (' ' :: s) = fNW s := by
          rw [fNW_cons]
          simp [show isPySpace ' ' = true by decide]
        rw [fNW_append, hsp, List.append_assoc]

theorem sentFold_spec {cs : Nat} (hcs : 0 < cs) :
    ∀ (ss : List (List Char)) (st : ChunkState), LoopInv cs st →
      (∀ p ∈ ss, cleanB p = true) →
      ∃ st', foldE (sentStep cs) st ss = .ok st' ∧ LoopInv cs st' ∧
        outNW st' = outNW st ++ (ss.map fNW).flatten ∧
        ∀ c ∈ st.chunks, c ∈ st'.chunks := by
  intro ss
  induction ss with
  | nil =>
    intro st h _
    exact ⟨st, rfl, h, by simp, fun c hc => hc⟩
  | cons p ps ih =>
    intro st h hclean
    obtain ⟨st1, he1, hI1, ho1, hm1⟩ := sentStep_spec hcs h (hclean p (by simp))
    obtain ⟨st2, he2, hI2, ho2, hm2⟩ := ih st1 hI1 (fun q hq => hclean q (by simp [hq]))
    refine ⟨st2, ?_, hI2, ?_, fun c hc => hm2 c (hm1 c hc)⟩
    · show (sentStep cs st p).bind (fun s2 => foldE (sentStep cs) s2 ps) = .ok st2
      rw [he1]
      exact he2
    · rw [ho2, ho1]
      simp [List.append_assoc]

theorem paraStep_spec {cs : Nat} {st : ChunkState} (p0 : List Char)
    (hcs : 0 < cs) (h : LoopInv cs st) :
    ∃ st', paraStep cs st p0 = .ok st' ∧ LoopInv cs st' ∧
      outNW st' = outNW st ++ fNW p0 ∧
      ∀ c ∈ st.chunks, c ∈ st'.chunks := by
  obtain ⟨hF, hFcur, hFout, hFmem⟩ := flush_spec h
  by_cases hemp : (strip p0).isEmpty = true
  · refine ⟨st, ?_, h, ?_, fun c hc => hc⟩
    · unfold paraStep
      rw [if_pos hemp]
    · have h1 : strip p0 = [] := List.isEmpty_iff.mp hemp
      have h2 : fNW p0 = [] := by
        rw [← fNW_strip, h1]
        rfl
      rw [h2]
      simp
  · have hne : strip p0 ≠ [] := by
      intro hx
      exact hemp (by rw [hx]; rfl)
    have hcleanp : cleanB (strip p0) = true := cleanB_strip hne
    by_cases hgt : st.current.length + (strip p0).length + 2 > cs
    · by_cases hbig : (strip p0).length > cs
      · obtain ⟨st2, he2, hI2, ho2, hm2⟩ :=
          sentFold_spec hcs (splitSentences (strip p0)) (flush st) hF
            (splitSentences_pieces_clean hcleanp)
        refine ⟨st2, ?_, hI2, ?_, fun c hc => hm2 c (hFmem c hc)⟩
        · unfold paraStep
          rw [if_neg hemp, if_pos hgt, if_pos hbig]
          exact he2
        · rw [ho2, hFout, fNW_splitSentences, fNW_strip]
      · refine ⟨⟨(flush st).chunks, strip p0⟩, ?_, ?_, ?_, hFmem⟩
        · unfold paraStep
          rw [if_neg hemp, if_pos hgt, if_neg hbig]
        · exact ⟨hF.1, Or.inr ⟨hcleanp, by show (strip p0).length ≤ cs; omega⟩⟩
        · have hout : outNW ⟨(flush st).chunks, strip p0⟩ =
              outNW (flush st) ++ fNW (strip p0) := by
            unfold outNW
            rw [hFcur]
            simp [fNW]
          rw [hout, hFout, fNW_strip]
    · refine ⟨⟨st.chunks,
        if st.current.isEmpty then strip p0
        else st.current ++ '\n' :: '\n' :: strip p0⟩, ?_, ?_, ?_, fun c hc => hc⟩
      · unfold paraStep
        rw [if_neg hemp, if_neg hgt]
      · refine ⟨h.1, Or.inr ?_⟩
        by_cases he : st.current.isEmpty = true
        · rw [if_pos he]
          have h0 : st.current.length = 0 := by
            rw [List.isEmpty_iff.mp he]
            rfl
          exact ⟨hcleanp, by show (strip p0).length ≤ cs; omega⟩
        · rw [if_neg he]
          have hnec : st.current ≠ [] := by
            intro hx
            exact he (by rw [hx]; rfl)
          have hcl : cleanB st.current = true ∧ st.current.length ≤ cs := by
            rcases h.2 with h2 | h2
            · exact absurd h2 hnec
            · exact h2
          constructor
          · have := cleanB_append_sep ['\n', '\n'] hcl.1 hcleanp
            simpa using this
          · simp only [List.length_append, List.length_cons]
            omega
      · by_cases he : st.current.isEmpty = true
        · rw [if_pos he]
          unfold outNW
          rw [List.isEmpty_iff.mp he, fNW_strip]
          simp [fNW]
        · rw [if_neg he]
          unfold outNW
          have hnn : fNW ('\n' :: '\n' :: strip p0) = fNW (strip p0) := by
            rw [fNW_cons, fNW_cons]
            simp [newline_isPySpace]
          rw [fNW_append, hnn, fNW_strip, List.append_assoc]

theorem paraFold_spec {cs : Nat} (hcs : 0 < cs) :
    ∀ (ps : List (List Char)) (st : ChunkState), LoopInv cs st →
      ∃ st', foldE (paraStep cs) st ps = .ok st' ∧ LoopInv cs st' ∧
        outNW st' = outNW st ++ (ps.map fNW).flatten ∧
        ∀ c ∈ st.chunks, c ∈ st'.chunks := by
  intro ps
  induction ps with
  | nil =>
    intro st h
    exact ⟨st, rfl, h, by simp, fun c hc => hc⟩
  | cons p ps ih =>
    intro st h
    obtain ⟨st1, he1, hI1, ho1, hm1⟩ := paraStep_spec p hcs h
    obtain ⟨st2, he2, hI2, ho2, hm2⟩ := ih st1 hI1
    refine ⟨st2, ?_, hI2, ?_, fun c hc => hm2 c (hm1 c hc)⟩
    · show (paraStep cs st p).bind (fun s2 => foldE (paraStep cs) s2 ps) = .ok st2
      rw [he1]
      exact he2
    · rw [ho2, ho1]
      simp [List.append_assoc]

theorem fNW_ne_nil_of_cleanB {s : List Char} (h : cleanB s = true) :
    fNW s ≠ [] := by
  rcases cleanB_iff.mp h with ⟨a, _, ha, _, hwa, _⟩
  obtain ⟨c, rest, rfl⟩ := List.exists_cons_of_ne_nil (cleanB_ne_nil h)
  have hca : c = a := by simpa using ha
  rw [fNW_cons, hca, if_neg (by rw [hwa]; simp)]
  simp

/-- Master lemma: for a positive bound the function returns `ok`, every chunk is
well formed, the chunks carry exactly the non-whitespace content of the input in
order, whitespace-only input yields `[]`, and any other input at least one chunk. -/
theorem chunkTextE_spec (text : List Char) (cs : Nat) (hcs : 0 < cs) :
    ∃ l, chunkTextE text cs = .ok l ∧ (∀ c ∈ l, goodChunk cs c) ∧
      (l.map (fun c => fNW c.text)).flatten = fNW text ∧
      (strip text = [] → l = []) ∧ (strip text ≠ [] → l ≠ []) := by
  by_cases hemp : (strip text).isEmpty = true
  · have h1 : strip text = [] := List.isEmpty_iff.mp hemp
    refine ⟨[], ?_, by simp, ?_, fun _ => rfl, fun hne => absurd h1 hne⟩
    · unfold chunkTextE
      rw [if_pos hemp]
    · rw [← fNW_strip, h1]
      rfl
  · have hsne : strip text ≠ [] := by
      intro hx
      exact hemp (by rw [hx]; rfl)
    have hscl : cleanB (strip text) = true := cleanB_strip hsne
    have htcl : cleanB (collapseNewlines (strip text)) = true :=
      cleanB_collapseNewlines hscl
    have htne : collapseNewlines (strip text) ≠ [] := cleanB_ne_nil htcl
    have hfnw : fNW (collapseNewlines (strip text)) = fNW text := by
      rw [fNW_collapseNewlines, fNW_strip]
    have hfnwne : fNW text ≠ [] := by
      rw [← fNW_strip]
      exact fNW_ne_nil_of_cleanB hscl
    by_cases hfit : (collapseNewlines (strip text)).length ≤ cs
    · refine ⟨[mkChunk (collapseNewlines (strip text))], ?_, ?_, ?_,
        fun hx => absurd hx hsne, fun _ => by simp⟩
      · unfold chunkTextE
        rw [if_neg hemp, if_pos hfit]
      · intro c hc
        simp at hc
        subst hc
        exact ⟨htne, htcl, hfit, rfl, rfl⟩
      · simp only [List.map_cons, List.map_nil, List.flatten_cons, List.flatten_nil]
        rw [show (mkChunk (collapseNewlines (strip text))).text =
          collapseNewlines (strip text) from rfl, hfnw]
        simp
    · obtain ⟨stf, hef, hIf, hof, _⟩ :=
        paraFold_spec hcs (splitParas (collapseNewlines (strip text)))
          ⟨[], []⟩ ⟨by simp, Or.inl rfl⟩
      have hcontent :
          ((stf.chunks.map (fun c => fNW c.text)).flatten) ++ fNW stf.current =
            fNW text := by
        have h0 : outNW (⟨[], []⟩ : ChunkState) = [] := by
          unfold outNW
          simp [fNW]
        have := hof
        rw [h0] at this
        unfold outNW at this
        rw [fNW_splitParas, hfnw] at this
        simpa using this
      by_cases hcur : (strip stf.current).isEmpty = true
      · have hc1 : strip stf.current = [] := List.isEmpty_iff.mp hcur
        have hc2 : fNW stf.current = [] := by
          rw [← fNW_strip, hc1]
          rfl
        refine ⟨stf.chunks, ?_, hIf.1, ?_, fun hx => absurd hx hsne, fun _ => ?_⟩
        · unfold chunkTextE
          rw [if_neg hemp, if_neg hfit, hef]
          show Except.ok (if (strip stf.current).isEmpty = true then stf.chunks
            else stf.chunks ++ [mkChunk (strip stf.current)]) = _
          rw [if_pos hcur]
        · rw [← hcontent, hc2]
          simp
        · intro hx
          rw [hx] at hcontent
          simp at hcontent
          rw [hc2] at hcontent
          exact hfnwne (by rw [← hcontent])
      · have hcne : strip stf.current ≠ [] := by
          intro hx
          exact hcur (by rw [hx]; rfl)
        have hcurne : stf.current ≠ [] := by
          intro hx
          apply hcne
          rw [hx]
          rfl
        have hcl : cleanB stf.current = true ∧ stf.current.length ≤ cs := by
          rcases hIf.2 with h2 | h2
          · exact absurd h2 hcurne
          · exact h2
        have hself : strip stf.current = stf.current :=
          strip_eq_self_of_cleanB hcl.1
        refine ⟨stf.chunks ++ [mkChunk (strip stf.current)], ?_, ?_, ?_,
          fun hx => absurd hx hsne, fun _ => by simp⟩
        · unfold chunkTextE
          rw [if_neg hemp, if_neg hfit, hef]
          show Except.ok (if (strip stf.current).isEmpty = true then stf.chunks
            else stf.chunks ++ [mkChunk (strip stf.current)]) = _
          rw [if_neg hcur]
        · intro c hc
          rcases List.mem_append.mp hc with hc | hc
          · exact hIf.1 c hc
          · simp at hc
            subst hc
            refine goodChunk_mkChunk_strip hcne ?_
            calc (strip stf.current).length ≤ stf.current.length :=
                strip_length_le _
              _ ≤ cs := hcl.2
        · rw [List.map_append, List.flatten_append]
          simp only [List.map_cons, List.map_nil, List.flatten_cons,
            List.flatten_nil]
          rw [show (mkChunk (strip stf.current)).text = strip stf.current from rfl,
            fNW_strip]
          rw [← hcontent]
          simp

/-! ### The fuel twins compute the same functions -/

theorem collapseNewlinesF_eq :
    ∀ (fuel : Nat) (s : List Char), s.length ≤ fuel →
      collapseNewlinesF fuel s = collapseNewlines s := by
  intro fuel
  induction fuel with
  | zero =>
    intro s h
    have hs : s = [] := by
      cases s with
      | nil => rfl
      | cons c r => simp at h
    subst hs
    rw [collapseNewlines_nil]
    rfl
  | succ f ih =>
    intro s h
    cases s with
    | nil =>
      rw [collapseNewlines_nil]
      rfl
    | cons c rest =>
      have hred : collapseNewlinesF (f + 1) (c :: rest) =
          if c = '\n' then
            (if 2 ≤ (rest.takeWhile (fun x => x = '\n')).length then ['\n', '\n']
             else '\n' :: rest.takeWhile (fun x => x = '\n')) ++
              collapseNewlinesF f (rest.dropWhile (fun x => x = '\n'))
          else c :: collapseNewlinesF f rest := rfl
      have hlen : rest.length ≤ f := by
        simp at h
        omega
      by_cases hc : c = '\n'
      · subst hc
        rw [hred, if_pos rfl, collapseNewlines_cons_newline,
          ih _ (le_trans (List.Sublist.length_le (List.dropWhile_sublist _)) hlen)]
      · rw [hred, if_neg hc, collapseNewlines_cons_other hc, ih rest hlen]

theorem collapseNewlines_eval (s : List Char) :
    collapseNewlines s = collapseNewlinesF s.length s :=
  (collapseNewlinesF_eq s.length s (le_refl _)).symm

theorem splitSentAuxF_eq :
    ∀ (fuel : Nat) (s acc : List Char), s.length ≤ fuel →
      splitSentAuxF fuel s acc = splitSentAux s acc := by
  intro fuel
  induction fuel with
  | zero =>
    intro s acc h
    have hs : s = [] := by
      cases s with
      | nil => rfl
      | cons c r => simp at h
    subst hs
    rw [splitSentAux.eq_1]
    rfl
  | succ f ih =>
    intro s acc h
    cases s with
    | nil =>
      rw [splitSentAux.eq_1]
      rfl
    | cons c rest =>
      have hlen : rest.length ≤ f := by
        simp at h
        omega
      cases rest with
      | nil =>
        rw [splitSentAuxF.eq_4, if_neg (by simp)]
        rw [splitSentAux_cons_neg (by simp)]
        rw [splitSentAux.eq_1]
        cases f <;> rfl
      | cons r tail =>
        rw [splitSentAuxF.eq_3]
        by_cases hcond : (isSentEnd c && isPySpace r) = true
        · rw [if_pos hcond, splitSentAux_cons_pos (by simpa using hcond),
            ih _ _ (le_trans (List.Sublist.length_le (List.dropWhile_sublist _)) hlen)]
        · rw [if_neg hcond, splitSentAux_cons_neg (by simpa using hcond),
            ih _ _ hlen]

theorem splitSentences_eval (s : List Char) :
    splitSentences s = splitSentAuxF s.length s [] :=
  (splitSentAuxF_eq s.length s [] (le_refl _)).symm

theorem hardSliceLoopF_eq :
    ∀ (fuel k : Nat) (s : List Char), s.length ≤ fuel →
      hardSliceLoopF k fuel s = hardSliceLoop k s := by
  intro fuel
  induction fuel with
  | zero =>
    intro k s h
    have hs : s = [] := by
      cases s with
      | nil => rfl
      | cons c r => simp at h
    subst hs
    rw [hardSliceLoop.eq_1]
    rfl
  | succ f ih =>
    intro k s h
    cases s with
    | nil =>
      rw [hardSliceLoop.eq_1]
      rfl
    | cons c rest =>
      have hlen : rest.length ≤ f := by
        simp at h
        omega
      rw [hardSliceLoop.eq_2]
      show (if (strip (List.take (k + 1) (c :: rest))).isEmpty then []
          else [mkChunk (strip (List.take (k + 1) (c :: rest)))]) ++
            hardSliceLoopF k f (rest.drop k) = _
      rw [ih k (rest.drop k)
        (le_trans (by rw [List.length_drop]; exact Nat.sub_le _ _) hlen)]

theorem foldE_congr {f g : ChunkState → List Char → Except Unit ChunkState}
    (h : ∀ st x, f st x = g st x) :
    ∀ (st : ChunkState) (xs : List (List Char)), foldE f st xs = foldE g st xs := by
  intro st xs
  induction xs generalizing st with
  | nil => rfl
  | cons x xs ih =>
    show (f st x).bind _ = (g st x).bind _
    rw [h st x]
    cases g st x with
    | error e => rfl
    | ok st2 => exact ih st2

theorem hardSliceEF_eq (s : List Char) (cs : Nat) :
    hardSliceEF s cs = hardSliceE s cs := by
  cases cs with
  | zero => rfl
  | succ k =>
    show Except.ok (hardSliceLoopF k s.length s) = Except.ok (hardSliceLoop k s)
    rw [hardSliceLoopF_eq s.length k s (le_refl _)]

theorem sentStepF_eq (cs : Nat) (st : ChunkState) (s : List Char) :
    sentStepF cs st s = sentStep cs st s := by
  unfold sentStepF sentStep
  rw [hardSliceEF_eq]

theorem paraStepF_eq (cs : Nat) (st : ChunkState) (p : List Char) :
    paraStepF cs st p = paraStep cs st p := by
  simp only [paraStepF, paraStep]
  rw [splitSentAuxF_eq (strip p).length (strip p) [] (le_refl _)]
  rw [foldE_congr (sentStepF_eq cs)]
  rfl

theorem chunkTextE_eval (text : List Char) (cs : Nat) :
    chunkTextE text cs = chunkTextEval text cs := by
  simp only [chunkTextE, chunkTextEval]
  rw [collapseNewlines_eval]
  rw [foldE_congr (paraStepF_eq cs)]

/-! ### Tracking one paragraph through the fold (for the small-paragraph claim) -/

theorem foldE_append (f : ChunkState → List Char → Except Unit ChunkState)
    (st : ChunkState) (xs ys : List (List Char)) :
    foldE f st (xs ++ ys) = (foldE f st xs).bind fun st2 => foldE f st2 ys := by
  induction xs generalizing st with
  | nil => rfl
  | cons x xs ih =>
    show (f st x).bind _ = ((f st x).bind _).bind _
    cases f st x with
    | error e => rfl
    | ok st2 =>
      show foldE f st2 (xs ++ ys) = (foldE f st2 xs).bind _
      exact ih st2

theorem infix_of_infix_current_flush {cs : Nat} {st : ChunkState} {p : List Char}
    (h : LoopInv cs st) (hp : p ≠ []) (hcur : p <:+: st.current) :
    ∃ c ∈ (flush st).chunks, p <:+: c.text := by
  have hne : st.current ≠ [] := by
    intro hx
    rw [hx] at hcur
    exact hp (List.eq_nil_of_infix_nil hcur)
  have hclean : cleanB st.current = true := by
    rcases h.2 with h2 | h2
    · exact absurd h2 hne
    · exact h2.1
  have hself : strip st.current = st.current := strip_eq_self_of_cleanB hclean
  refine ⟨mkChunk (strip st.current), ?_, ?_⟩
  · unfold flush
    rw [if_neg (by simpa [List.isEmpty_iff] using hne)]
    simp
  · rw [show (mkChunk (strip st.current)).text = strip st.current from rfl, hself]
    exact hcur

theorem paraStep_small {cs : Nat} (st : ChunkState) {p0 : List Char}
    (hne : strip p0 ≠ []) (hlen : (strip p0).length ≤ cs) :
    ∃ st', paraStep cs st p0 = .ok st' ∧ strip p0 <:+ st'.current := by
  have hemp : ¬(strip p0).isEmpty = true := by
    simpa [List.isEmpty_iff] using hne
  by_cases hgt : st.current.length + (strip p0).length + 2 > cs
  · have hbig : ¬(strip p0).length > cs := by omega
    refine ⟨⟨(flush st).chunks, strip p0⟩, ?_, List.suffix_rfl⟩
    unfold paraStep
    rw [if_neg hemp, if_pos hgt, if_neg hbig]
  · refine ⟨⟨st.chunks,
      if st.current.isEmpty then strip p0
      else st.current ++ '\n' :: '\n' :: strip p0⟩, ?_, ?_⟩
    · unfold paraStep
      rw [if_neg hemp, if_neg hgt]
    · by_cases he : st.current.isEmpty = true
      · rw [if_pos he]
      · rw [if_neg he]
        show strip p0 <:+ st.current ++ '\n' :: '\n' :: strip p0
        exact ⟨st.current ++ ['\n', '\n'], by simp⟩

theorem paraStep_infix_pres {cs : Nat} {st st' : ChunkState} {x p : List Char}
    (hcs : 0 < cs) (h : LoopInv cs st) (hp : p ≠ [])
    (hQ : (∃ c ∈ st.chunks, p <:+: c.text) ∨ p <:+: st.current)
    (hstep : paraStep cs st x = .ok st') :
    (∃ c ∈ st'.chunks, p <:+: c.text) ∨ p <:+: st'.current := by
  obtain ⟨hF, hFcur, hFout, hFmem⟩ := flush_spec h
  by_cases hemp : (strip x).isEmpty = true
  · have : st' = st := by
      unfold paraStep at hstep
      rw [if_pos hemp] at hstep
      exact (Except.ok.injEq _ _).mp hstep.symm
    rw [this]
    exact hQ
  · have hQflush : (∃ c ∈ (flush st).chunks, p <:+: c.text) := by
      rcases hQ with ⟨c, hc, hinf⟩ | hcur
      · exact ⟨c, hFmem c hc, hinf⟩
      · exact infix_of_infix_current_flush h hp hcur
    by_cases hgt : st.current.length + (strip x).length + 2 > cs
    · by_cases hbig : (strip x).length > cs
      · have hstep2 : foldE (sentStep cs) (flush st)
            (splitSentences (strip x)) = .ok st' := by
          unfold paraStep at hstep
          rw [if_neg hemp, if_pos hgt, if_pos hbig] at hstep
          exact hstep
        obtain ⟨st2, he2, _, _, hm2⟩ :=
          sentFold_spec hcs (splitSentences (strip x)) (flush st) hF
            (splitSentences_pieces_clean (cleanB_strip (by
              intro hx
              exact hemp (by rw [hx]; rfl))))
        rw [he2] at hstep2
        have hst : st2 = st' := (Except.ok.injEq _ _).mp hstep2
        subst hst
        obtain ⟨c, hc, hinf⟩ := hQflush
        exact Or.inl ⟨c, hm2 c hc, hinf⟩
      · have hval : st' = ⟨(flush st).chunks, strip x⟩ := by
          unfold paraStep at hstep
          rw [if_neg hemp, if_pos hgt, if_neg hbig] at hstep
          exact ((Except.ok.injEq _ _).mp hstep).symm
        rw [hval]
        exact Or.inl hQflush
    · have hval : st' = ⟨st.chunks,
          if st.current.isEmpty then strip x
          else st.current ++ '\n' :: '\n' :: strip x⟩ := by
        unfold paraStep at hstep
        rw [if_neg hemp, if_neg hgt] at hstep
        exact ((Except.ok.injEq _ _).mp hstep).symm
      rcases hQ with ⟨c, hc, hinf⟩ | hcur
      · rw [hval]
        exact Or.inl ⟨c, hc, hinf⟩
      · have hcne : st.current ≠ [] := by
          intro hx
          rw [hx] at hcur
          exact hp (List.eq_nil_of_infix_nil hcur)
        rw [hval]
        refine Or.inr ?_
        rw [if_neg (by simpa [List.isEmpty_iff] using hcne)]
        show p <:+: st.current ++ '\n' :: '\n' :: strip x
        exact hcur.trans (List.prefix_append _ _).isInfix

theorem paraFold_infix_pres {cs : Nat} {p : List Char} (hcs : 0 < cs)
    (hp : p ≠ []) :
    ∀ (ps : List (List Char)) (st st' : ChunkState), LoopInv cs st →
      ((∃ c ∈ st.chunks, p <:+: c.text) ∨ p <:+: st.current) →
      foldE (paraStep cs) st ps = .ok st' →
      (∃ c ∈ st'.chunks, p <:+: c.text) ∨ p <:+: st'.current := by
  intro ps
  induction ps with
  | nil =>
    intro st st' h hQ heq
    have : st = st' := (Except.ok.injEq _ _).mp heq
    rw [← this]
    exact hQ
  | cons x xs ih =>
    intro st st' h hQ heq
    obtain ⟨st1, he1, hI1, _, _⟩ := paraStep_spec x hcs h
    have heq2 : foldE (paraStep cs) st1 xs = .ok st' := by
      show foldE (paraStep cs) st1 xs = .ok st'
      have : (paraStep cs st x).bind
          (fun s2 => foldE (paraStep cs) s2 xs) = .ok st' := heq
      rw [he1] at this
      exact this
    exact ih st1 st' hI1 (paraStep_infix_pres hcs h hp hQ he1) heq2

/-! ### Error propagation at chunk size 0 -/

theorem sentFold_zero_err {st : ChunkState} {s1 : List Char} (hs1 : s1 ≠ [])
    (ss : List (List Char)) :
    foldE (sentStep 0) st (s1 :: ss) = .error () := by
  have hstep : sentStep 0 st s1 = .error () := by
    unfold sentStep
    rw [if_pos (by omega)]
    rw [if_pos (by
      have : 0 < s1.length := List.length_pos.mpr hs1
      omega)]
    rfl
  show (sentStep 0 st s1).bind _ = .error ()
  rw [hstep]
  rfl

theorem paraFold_zero_err :
    ∀ (ps : List (List Char)) (st : ChunkState),
      (∃ p ∈ ps, strip p ≠ []) →
      foldE (paraStep 0) st ps = .error () := by
  intro ps
  induction ps with
  | nil =>
    intro st h
    simp at h
  | cons x xs ih =>
    intro st h
    by_cases hx : strip x = []
    · have hstep : paraStep 0 st x = .ok st := by
        unfold paraStep
        rw [if_pos (by rw [hx]; rfl)]
      show (paraStep 0 st x).bind _ = .error ()
      rw [hstep]
      show foldE (paraStep 0) st xs = .error ()
      refine ih st ?_
      rcases h with ⟨p, hp, hpne⟩
      rcases List.mem_cons.mp hp with rfl | hp'
      · exact absurd hx hpne
      · exact ⟨p, hp', hpne⟩
    · have hcl : cleanB (strip x) = true := cleanB_strip hx
      obtain ⟨s1, ss, hss⟩ :=
        List.exists_cons_of_ne_nil (splitSentAux_ne_nil (strip x) [])
      have hs1 : s1 ≠ [] := by
        have := splitSentences_pieces_clean hcl s1 (by
          unfold splitSentences
          rw [hss]
          simp)
        exact cleanB_ne_nil this
      have hstep : paraStep 0 st x = .error () := by
        unfold paraStep
        rw [if_neg (by simpa [List.isEmpty_iff] using hx)]
        rw [if_pos (by omega)]
        rw [if_pos (by
          have : 0 < (strip x).length := List.length_pos.mpr hx
          omega)]
        show foldE (sentStep 0) (flush st) (splitSentences (strip x)) = .error ()
        unfold splitSentences
        rw [hss]
        exact sentFold_zero_err hs1 ss
      show (paraStep 0 st x).bind _ = .error ()
      rw [hstep]
      rfl

/-! ### Last two content helpers -/

theorem fNW_flatten : ∀ L : List (List Char),
    fNW L.flatten = (L.map fNW).flatten
  | [] => rfl
  | x :: xs => by
    rw [List.flatten_cons, fNW_append, fNW_flatten xs, List.map_cons,
      List.flatten_cons]

/-! ### The claims -/

/-- C1: for every input text and every positive chunk size, every chunk in the
list returned by `chunk_text` has `charCount ≤ chunkSize`, including the chunks
produced by the hard-slice fallback: the bound is never exceeded. -/
theorem c1_chunk_size_bound (text : List Char) (cs : Nat) (hcs : 0 < cs)
    (l : List Chunk) (h : chunkTextE text cs = Except.ok l) :
    ∀ c ∈ l, c.charCount ≤ cs := by
  obtain ⟨l0, he, hg, _, _, _⟩ := chunkTextE_spec text cs hcs
  rw [he] at h
  have hl : l0 = l := (Except.ok.injEq _ _).mp h
  subst hl
  intro c hc
  obtain ⟨_, _, hlen, hcount, _⟩ := hg c hc
  rw [hcount]
  exact hlen

theorem c1_chunk_size_bound_witness :
    0 < 5 ∧
    chunkTextE (pyStr "aaaa bbbb cccc") 5 =
      Except.ok [mkChunk (pyStr "aaaa"), mkChunk (pyStr "bbbb"),
        mkChunk (pyStr "cccc")] ∧
    ∀ c ∈ [mkChunk (pyStr "aaaa"), mkChunk (pyStr "bbbb"),
        mkChunk (pyStr "cccc")], c.charCount ≤ 5 :=
  ⟨by decide, by rw [chunkTextE_eval]; rfl,
    c1_chunk_size_bound (pyStr "aaaa bbbb cccc") 5 (by decide) _
      (by rw [chunkTextE_eval]; rfl)⟩

/-- C2: for every input text and positive chunk size, the non-whitespace
characters of the returned chunks, concatenated in order, are exactly the
non-whitespace characters of the normalized input (the input trimmed, with runs
of 3+ newlines collapsed to 2), as a sequence: no non-whitespace content is
dropped, duplicated, or reordered, so each such character lands in exactly one
chunk. -/
theorem c2_no_content_loss (text : List Char) (cs : Nat) (hcs : 0 < cs)
    (l : List Chunk) (h : chunkTextE text cs = Except.ok l) :
    (l.map (fun c => fNW c.text)).flatten =
      fNW (collapseNewlines (strip text)) := by
  obtain ⟨l0, he, _, hcontent, _, _⟩ := chunkTextE_spec text cs hcs
  rw [he] at h
  have hl : l0 = l := (Except.ok.injEq _ _).mp h
  subst hl
  rw [hcontent, fNW_collapseNewlines, fNW_strip]

theorem c2_no_content_loss_witness :
    0 < 15 ∧
    chunkTextE (pyStr "para one here\n\npara two here\n\npara three") 15 =
      Except.ok [mkChunk (pyStr "para one here"), mkChunk (pyStr "para two here"),
        mkChunk (pyStr "para three")] ∧
    (([mkChunk (pyStr "para one here"), mkChunk (pyStr "para two here"),
        mkChunk (pyStr "para three")].map (fun c => fNW c.text)).flatten =
      fNW (collapseNewlines
        (strip (pyStr "para one here\n\npara two here\n\npara three")))) :=
  ⟨by decide, by rw [chunkTextE_eval]; rfl,
    c2_no_content_loss _ 15 (by decide) _ (by rw [chunkTextE_eval]; rfl)⟩

/-- C3 counterexample: the claim that concatenating the chunks (re-inserting
the separators stripped during splitting) reproduces the input with the sole
alteration being the 3+-newline collapse is false.  For text `"A.   B"` and
chunk size 4 the normalized input is unchanged (`"A.   B"`), yet the single
returned chunk's text is `"A. B"`: the three-space run after the sentence
terminator was replaced by a single space when the two sentences were
rejoined.  `"A. B"` is not even an infix of `"A.   B"`, so no re-insertion of
separator whitespace around or between chunks can reproduce the input. -/
theorem c3_concat_counterexample :
    chunkTextE (pyStr "A.   B") 4 = Except.ok [mkChunk (pyStr "A. B")] ∧
    collapseNewlines (strip (pyStr "A.   B")) = pyStr "A.   B" ∧
    ¬(pyStr "A. B" <:+: pyStr "A.   B") :=
  ⟨by rw [chunkTextE_eval]; rfl, by rw [collapseNewlines_eval]; rfl, by decide⟩

/-- C3 amended: concatenating all returned chunks' text in order reproduces the
input's non-whitespace content losslessly and in order; whitespace, however,
may be altered not only by collapsing 3+-newline runs to 2 but also at split
points: trimming, the rejoining of sentences with a single space, and the
trimming of hard-slice windows may drop or replace other whitespace of the
input. -/
theorem c3_concat_amended (text : List Char) (cs : Nat) (hcs : 0 < cs)
    (l : List Chunk) (h : chunkTextE text cs = Except.ok l) :
    fNW ((l.map Chunk.text).flatten) = fNW text := by
  obtain ⟨l0, he, _, hcontent, _, _⟩ := chunkTextE_spec text cs hcs
  rw [he] at h
  have hl : l0 = l := (Except.ok.injEq _ _).mp h
  subst hl
  rw [fNW_flatten, List.map_map]
  exact hcontent

theorem c3_concat_amended_witness :
    0 < 4 ∧
    chunkTextE (pyStr "A.   B") 4 = Except.ok [mkChunk (pyStr "A. B")] ∧
    fNW (([mkChunk (pyStr "A. B")].map Chunk.text).flatten) =
      fNW (pyStr "A.   B") :=
  ⟨by decide, by rw [chunkTextE_eval]; rfl,
    c3_concat_amended (pyStr "A.   B") 4 (by decide) _
      (by rw [chunkTextE_eval]; rfl)⟩

/-- C4: chunks come back in the original reading order: the non-whitespace
content of the concatenation of `chunk[i].text` for increasing `i` equals the
concatenation, in paragraph order, of the paragraphs' non-whitespace content
of the normalized input — the paragraph sequence is never permuted. -/
theorem c4_order_preservation (text : List Char) (cs : Nat) (hcs : 0 < cs)
    (l : List Chunk) (h : chunkTextE text cs = Except.ok l) :
    (l.map (fun c => fNW c.text)).flatten =
      ((splitParas (collapseNewlines (strip text))).map fNW).flatten := by
  obtain ⟨l0, he, _, hcontent, _, _⟩ := chunkTextE_spec text cs hcs
  rw [he] at h
  have hl : l0 = l := (Except.ok.injEq _ _).mp h
  subst hl
  rw [hcontent, fNW_splitParas, fNW_collapseNewlines, fNW_strip]

theorem c4_order_preservation_witness :
    0 < 20 ∧
    chunkTextE (pyStr "p1 word\n\np2 word\n\np3 longer paragraph here. second sentence! third?") 20 =
      Except.ok [mkChunk (pyStr "p1 word\n\np2 word"),
        mkChunk (pyStr "p3 longer paragraph"),
        mkChunk (pyStr "here."), mkChunk (pyStr "second sentence!"),
        mkChunk (pyStr "third?")] ∧
    (([mkChunk (pyStr "p1 word\n\np2 word"),
        mkChunk (pyStr "p3 longer paragraph"),
        mkChunk (pyStr "here."), mkChunk (pyStr "second sentence!"),
        mkChunk (pyStr "third?")].map (fun c => fNW c.text)).flatten =
      ((splitParas (collapseNewlines (strip
        (pyStr "p1 word\n\np2 word\n\np3 longer paragraph here. second sentence! third?")))).map
          fNW).flatten) :=
  ⟨by decide, by rw [chunkTextE_eval]; rfl,
    c4_order_preservation _ 20 (by decide) _ (by rw [chunkTextE_eval]; rfl)⟩

/-- C5: for every text and positive chunk size the function returns a value
(never an error): the empty/whitespace-only case yields the empty list, and
any other text yields a non-empty list of chunks whose (already trimmed) texts
are non-empty and within the size bound. -/
theorem c5_total_no_error (text : List Char) (cs : Nat) (hcs : 0 < cs) :
    ∃ l, chunkTextE text cs = Except.ok l ∧
      (strip text = [] → l = []) ∧
      (strip text ≠ [] → l ≠ [] ∧ ∀ c ∈ l, c.text ≠ [] ∧ c.charCount ≤ cs) := by
  obtain ⟨l, he, hg, _, hempty, hne⟩ := chunkTextE_spec text cs hcs
  refine ⟨l, he, hempty, fun hx => ⟨hne hx, fun c hc => ⟨(hg c hc).1, ?_⟩⟩⟩
  rw [(hg c hc).2.2.2.1]
  exact (hg c hc).2.2.1

theorem c5_total_no_error_witness :
    0 < 5 ∧
    (∃ l, chunkTextE (pyStr "hello world") 5 = Except.ok l ∧
      (strip (pyStr "hello world") = [] → l = []) ∧
      (strip (pyStr "hello world") ≠ [] →
        l ≠ [] ∧ ∀ c ∈ l, c.text ≠ [] ∧ c.charCount ≤ 5)) :=
  ⟨by decide, c5_total_no_error (pyStr "hello world") 5 (by decide)⟩

/-- C6: the fast path: when the trimmed text is non-empty and its normalized
form (trimmed, 3+-newline runs collapsed to 2) fits in the bound, the result
is exactly one chunk whose text is that normalized form and whose `charCount`
is its length — no splitting happens for short documents. -/
theorem c6_fast_path (text : List Char) (cs : Nat) (h1 : strip text ≠ [])
    (h2 : (collapseNewlines (strip text)).length ≤ cs) :
    chunkTextE text cs =
      Except.ok [⟨collapseNewlines (strip text),
        (collapseNewlines (strip text)).length, true⟩] := by
  unfold chunkTextE
  rw [if_neg (by simpa [List.isEmpty_iff] using h1), if_pos h2]
  rfl

theorem c6_fast_path_witness :
    strip (pyStr "a short\n\n\n\ndocument  here") ≠ [] ∧
    (collapseNewlines (strip (pyStr "a short\n\n\n\ndocument  here"))).length ≤ 200 ∧
    chunkTextE (pyStr "a short\n\n\n\ndocument  here") 200 =
      Except.ok [⟨collapseNewlines (strip (pyStr "a short\n\n\n\ndocument  here")),
        (collapseNewlines (strip (pyStr "a short\n\n\n\ndocument  here"))).length,
        true⟩] :=
  ⟨by decide, by rw [collapseNewlines_eval]; decide,
    c6_fast_path (pyStr "a short\n\n\n\ndocument  here") 200 (by decide)
      (by rw [collapseNewlines_eval]; decide)⟩

/-- C7: whitespace-only input (including the empty string) yields the empty
sequence for every chunk size — never an empty chunk. -/
theorem c7_whitespace_empty (text : List Char) (cs : Nat)
    (h : ∀ c ∈ text, isPySpace c = true) :
    chunkTextE text cs = Except.ok [] := by
  have hs : strip text = [] := strip_eq_nil_iff.mpr (fNW_eq_nil_iff.mpr h)
  unfold chunkTextE
  rw [if_pos (by rw [hs]; rfl)]

theorem c7_whitespace_empty_witness :
    (∀ c ∈ pyStr "", isPySpace c = true) ∧
    chunkTextE (pyStr "") 1500 = Except.ok [] ∧
    (∀ c ∈ pyStr "   ", isPySpace c = true) ∧
    chunkTextE (pyStr "   ") 1500 = Except.ok [] ∧
    (∀ c ∈ pyStr "\n\n\n", isPySpace c = true) ∧
    chunkTextE (pyStr "\n\n\n") 1500 = Except.ok [] :=
  ⟨by decide, c7_whitespace_empty (pyStr "") 1500 (by decide),
    by decide, c7_whitespace_empty (pyStr "   ") 1500 (by decide),
    by decide, c7_whitespace_empty (pyStr "\n\n\n") 1500 (by decide)⟩

/-- C8: when the whole text is a single paragraph that is a single sentence
(no whitespace, no sentence-ending punctuation) longer than the bound, the
pipeline reduces to the hard-slice fallback: the result is exactly the chunks
of the fixed-width windows at offsets 0, cs, 2·cs, …, each trimmed — in
particular a 300-character sentence at chunk size 50 yields 6 chunks of
exactly 50 characters (see the witness). -/
theorem c8_hard_slice (text : List Char) (cs : Nat) (hcs : 0 < cs)
    (hlen : cs < text.length)
    (hchars : ∀ c ∈ text, isPySpace c = false ∧ isSentEnd c = false) :
    chunkTextE text cs = hardSliceE text cs := by
  have htne : text ≠ [] := by
    intro hx
    rw [hx] at hlen
    simp at hlen
  obtain ⟨a, ha⟩ := exists_head?_of_ne_nil htne
  obtain ⟨b, hb⟩ := exists_getLast?_of_ne_nil htne
  have hclean : cleanB text = true := by
    refine cleanB_iff.mpr ⟨a, b, ha, hb, ?_, ?_⟩
    · exact (hchars a (List.mem_of_mem_head? (by rw [ha]; rfl))).1
    · exact (hchars b (List.mem_of_mem_getLast? (by rw [hb]; rfl))).1
  have hstripid : strip text = text := strip_eq_self_of_cleanB hclean
  have hnonl : ∀ c ∈ text, c ≠ '\n' := by
    intro c hc he
    have := (hchars c hc).1
    rw [he, newline_isPySpace] at this
    simp at this
  have hcol : collapseNewlines text = text := collapseNewlines_eq_self hnonl
  have hparas : splitParas text = [text] := by
    unfold splitParas
    rw [splitParasAux_no_newline hnonl]
    simp
  have hsents : splitSentences text = [text] := by
    unfold splitSentences
    rw [splitSentAux_no_sentEnd (fun c hc => (hchars c hc).2)]
    simp
  obtain ⟨k, rfl⟩ : ∃ k, cs = k + 1 := ⟨cs - 1, by omega⟩
  have hsent : sentStep (k + 1) ⟨[], []⟩ text = .ok ⟨hardSliceLoop k text, []⟩ := by
    unfold sentStep
    rw [if_pos (by show ([] : List Char).length + text.length + 1 > k + 1; simp; omega)]
    rw [if_pos hlen]
    rfl
  have hpara : paraStep (k + 1) ⟨[], []⟩ text = .ok ⟨hardSliceLoop k text, []⟩ := by
    simp only [paraStep]
    rw [hstripid]
    rw [if_neg (by simpa [List.isEmpty_iff] using htne)]
    rw [if_pos (by show ([] : List Char).length + text.length + 2 > k + 1; simp; omega)]
    rw [if_pos hlen, hsents]
    show (sentStep (k + 1) (flush ⟨[], []⟩) text).bind _ = _
    rw [show flush ⟨[], []⟩ = (⟨[], []⟩ : ChunkState) from rfl, hsent]
    rfl
  simp only [chunkTextE]
  rw [hstripid, hcol, hparas]
  rw [if_neg (by simpa [List.isEmpty_iff] using htne)]
  rw [if_neg (by omega)]
  show ((paraStep (k + 1) ⟨[], []⟩ text).bind _).bind _ = _
  rw [hpara]
  rfl

set_option maxRecDepth 40000 in
theorem c8_hard_slice_witness :
    0 < 50 ∧ 50 < (List.replicate 300 'a').length ∧
    (∀ c ∈ List.replicate 300 'a', isPySpace c = false ∧ isSentEnd c = false) ∧
    chunkTextE (List.replicate 300 'a') 50 = hardSliceE (List.replicate 300 'a') 50 ∧
    hardSliceE (List.replicate 300 'a') 50 =
      Except.ok (List.replicate 6 (mkChunk (List.replicate 50 'a'))) ∧
    (List.replicate 6 (mkChunk (List.replicate 50 'a'))).length = 6 ∧
    (∀ c ∈ List.replicate 6 (mkChunk (List.replicate 50 'a')), c.charCount = 50) :=
  ⟨by decide, by decide, by decide,
    c8_hard_slice (List.replicate 300 'a') 50 (by decide) (by decide) (by decide),
    by rw [← hardSliceEF_eq]; rfl, by decide, by decide⟩

/-- C9: a paragraph of the normalized input whose stripped text fits in the
bound is never sentence-split or hard-sliced: its stripped text appears
contiguously (as an infix, hence inside one chunk rather than split across
several) and unaltered in an output chunk — including the case where the
paragraph fails the look-ahead check with an empty buffer because
`len(para) + 2 > chunkSize`: it is then carried whole as the new buffer. -/
theorem c9_small_paragraph_intact (text : List Char) (cs : Nat) (hcs : 0 < cs)
    (l : List Chunk) (h : chunkTextE text cs = Except.ok l)
    (para0 : List Char)
    (hmem : para0 ∈ splitParas (collapseNewlines (strip text)))
    (hne : strip para0 ≠ []) (hlen : (strip para0).length ≤ cs) :
    ∃ c ∈ l, strip para0 <:+: c.text := by
  by_cases hemp : (strip text).isEmpty = true
  · exfalso
    have hst : strip text = [] := List.isEmpty_iff.mp hemp
    rw [hst, collapseNewlines_nil] at hmem
    have : para0 = [] := by
      simpa [splitParas, splitParasAux.eq_1] using hmem
    rw [this] at hne
    exact hne rfl
  · by_cases hfit : (collapseNewlines (strip text)).length ≤ cs
    · have hval : chunkTextE text cs =
          .ok [mkChunk (collapseNewlines (strip text))] := by
        unfold chunkTextE
        rw [if_neg hemp, if_pos hfit]
      rw [hval] at h
      have hl : [mkChunk (collapseNewlines (strip text))] = l :=
        (Except.ok.injEq _ _).mp h
      subst hl
      refine ⟨mkChunk (collapseNewlines (strip text)), by simp, ?_⟩
      exact (strip_infix_self para0).trans (infix_of_mem_splitParas hmem)
    · cases hfold : foldE (paraStep cs) ⟨[], []⟩
          (splitParas (collapseNewlines (strip text))) with
      | error e =>
        exfalso
        unfold chunkTextE at h
        rw [if_neg hemp, if_neg hfit, hfold] at h
        exact Except.noConfusion h
      | ok stf =>
        have hl : l = (if (strip stf.current).isEmpty then stf.chunks
            else stf.chunks ++ [mkChunk (strip stf.current)]) := by
          unfold chunkTextE at h
          rw [if_neg hemp, if_neg hfit, hfold] at h
          exact ((Except.ok.injEq _ _).mp h).symm
        obtain ⟨hIf, hQf⟩ :
            LoopInv cs stf ∧
              ((∃ c ∈ stf.chunks, strip para0 <:+: c.text) ∨
                strip para0 <:+: stf.current) := by
          obtain ⟨L1, L2, hsplit⟩ := List.append_of_mem hmem
          obtain ⟨st1, he1, hI1, _, _⟩ :=
            paraFold_spec hcs L1 ⟨[], []⟩ ⟨by simp, Or.inl rfl⟩
          obtain ⟨st2, he2, hsuf⟩ := paraStep_small st1 hne hlen
          obtain ⟨st2', he2', hI2', _, _⟩ := paraStep_spec para0 hcs hI1
          have hst2 : st2' = st2 := by
            rw [he2] at he2'
            exact (Except.ok.injEq _ _).mp he2'.symm
          subst hst2
          have hchain : foldE (paraStep cs) st2' L2 = .ok stf := by
            rw [hsplit, foldE_append, he1] at hfold
            have hfold2 : foldE (paraStep cs) st1 (para0 :: L2) = .ok stf := hfold
            have hfold3 : (paraStep cs st1 para0).bind
                (fun s2 => foldE (paraStep cs) s2 L2) = .ok stf := hfold2
            rw [he2] at hfold3
            exact hfold3
          refine ⟨?_, paraFold_infix_pres hcs hne L2 st2' stf hI2'
            (Or.inr hsuf.isInfix) hchain⟩
          obtain ⟨stfull, hefull, hIfull, _, _⟩ :=
            paraFold_spec hcs (splitParas (collapseNewlines (strip text)))
              ⟨[], []⟩ ⟨by simp, Or.inl rfl⟩
          rw [hfold] at hefull
          have : stfull = stf := (Except.ok.injEq _ _).mp hefull.symm
          rw [← this]
          exact hIfull
        rcases hQf with ⟨c, hc, hinf⟩ | hcur
        · refine ⟨c, ?_, hinf⟩
          rw [hl]
          by_cases hce : (strip stf.current).isEmpty = true
          · rw [if_pos hce]
            exact hc
          · rw [if_neg hce]
            exact List.mem_append.mpr (Or.inl hc)
        · have hcne : stf.current ≠ [] := by
            intro hx
            rw [hx] at hcur
            exact hne (List.eq_nil_of_infix_nil hcur)
          have hclf : cleanB stf.current = true := by
            rcases hIf.2 with h2 | h2
            · exact absurd h2 hcne
            · exact h2.1
          have hselff : strip stf.current = stf.current :=
            strip_eq_self_of_cleanB hclf
          refine ⟨mkChunk (strip stf.current), ?_, ?_⟩
          · rw [hl, if_neg (by
              rw [hselff]
              simpa [List.isEmpty_iff] using hcne)]
            simp
          · rw [show (mkChunk (strip stf.current)).text =
              strip stf.current from rfl, hselff]
            exact hcur

set_option maxRecDepth 4000 in
theorem c9_small_paragraph_intact_witness :
    0 < 10 ∧
    chunkTextE (pyStr "tiny\n\nbbbbbbbbbbbbbbbbbbbbbbbbbbbbbb") 10 =
      Except.ok [mkChunk (pyStr "tiny"), mkChunk (pyStr "bbbbbbbbbb"),
        mkChunk (pyStr "bbbbbbbbbb"), mkChunk (pyStr "bbbbbbbbbb")] ∧
    pyStr "tiny" ∈ splitParas (collapseNewlines
      (strip (pyStr "tiny\n\nbbbbbbbbbbbbbbbbbbbbbbbbbbbbbb"))) ∧
    strip (pyStr "tiny") ≠ [] ∧ (strip (pyStr "tiny")).length ≤ 10 ∧
    (∃ c ∈ [mkChunk (pyStr "tiny"), mkChunk (pyStr "bbbbbbbbbb"),
        mkChunk (pyStr "bbbbbbbbbb"), mkChunk (pyStr "bbbbbbbbbb")],
      strip (pyStr "tiny") <:+: c.text) :=
  ⟨by decide, by rw [chunkTextE_eval]; rfl,
    by rw [collapseNewlines_eval]; decide, by decide, by decide,
    c9_small_paragraph_intact (pyStr "tiny\n\nbbbbbbbbbbbbbbbbbbbbbbbbbbbbbb")
      10 (by decide) _ (by rw [chunkTextE_eval]; rfl) (pyStr "tiny")
      (by rw [collapseNewlines_eval]; decide) (by decide) (by decide)⟩

/-- C10: the function is not total outside the positive-chunk-size
precondition: for any text with at least one non-whitespace character,
`chunk_text` with chunk size 0 always reaches the hard-slice loop, whose
`range(0, len(sentence), 0)` raises `ValueError` — modelled as the error
value of the embedding. -/
theorem c10_zero_chunk_size_raises (text : List Char)
    (h : ∃ c ∈ text, isPySpace c = false) :
    chunkTextE text 0 = Except.error () := by
  have hfnw : fNW text ≠ [] := by
    intro hx
    obtain ⟨c, hc, hw⟩ := h
    have := fNW_eq_nil_iff.mp hx c hc
    rw [hw] at this
    simp at this
  have hsne : strip text ≠ [] := fun hx => hfnw (strip_eq_nil_iff.mp hx)
  have htne : collapseNewlines (strip text) ≠ [] := collapseNewlines_ne_nil hsne
  have htnw : fNW (collapseNewlines (strip text)) ≠ [] := by
    rw [fNW_collapseNewlines, fNW_strip]
    exact hfnw
  have hex : ∃ p ∈ splitParas (collapseNewlines (strip text)), strip p ≠ [] := by
    by_contra hall
    push_neg at hall
    refine htnw ?_
    rw [← fNW_splitParas]
    rw [List.flatten_eq_nil_iff]
    intro l hl
    rcases List.mem_map.mp hl with ⟨p, hp, rfl⟩
    exact strip_eq_nil_iff.mp (hall p hp)
  unfold chunkTextE
  rw [if_neg (by simpa [List.isEmpty_iff] using hsne)]
  rw [if_neg (by
    have := List.length_pos.mpr htne
    omega)]
  show (foldE (paraStep 0) ⟨[], []⟩ _).bind _ = _
  rw [paraFold_zero_err _ _ hex]
  rfl

theorem c10_zero_chunk_size_raises_witness :
    (∃ c ∈ pyStr "hello", isPySpace c = false) ∧
    chunkTextE (pyStr "hello") 0 = Except.error () :=
  ⟨by decide, c10_zero_chunk_size_raises (pyStr "hello") (by decide)⟩
